import Mathlib

/-!
Verification of the jstreemap ordered-container library.

The repository ships the `TreeSet` facade (`src/public/tree-set.js`) and the
`TreeNode` class (`src/internal/tree-node.js`); the red-black tree engine
(`src/internal/tree.js`) is referenced by the facade but its source is not in
the repository, so the engine is modelled from the specification: a red-black
tree with comparator-guided descent, red insertion with insert-fixup, and
structural deletion with delete-fixup, maintaining the documented invariants
(root Black, no red-red edge, uniform black-height, ordered in-order
traversal).  The model is purely functional: nodes are a recursive datatype,
parent pointers are implicit in the structure, and cursors are positions in
the in-order sequence.
-/

namespace Jstreemap

/-- Node colors.  `src/internal/tree-node.js` represents them as the
constants `RED = 1` and `BLACK = 2`. -/
inductive Color where
  | red
  | black
deriving Repr, DecidableEq

/-- Modelled from the spec: the node graph owned by the missing tree engine
(`src/internal/tree.js`).  A node holds a key, a color and two child links;
the parent back-reference of `tree-node.js` is implicit in the recursive
structure. -/
inductive RBN (α : Type) where
  | nil
  | node (c : Color) (l : RBN α) (k : α) (r : RBN α)
deriving Repr, DecidableEq

namespace RBN

variable {α : Type}

/-- In-order traversal of the tree, the sequence a forward cursor walks. -/
def toList : RBN α → List α
  | .nil => []
  | .node _ l k r => toList l ++ k :: toList r

/-- Modelled from the spec: the size counter of the missing tree engine,
which the spec requires to equal the count of nodes reachable from the
root. -/
def size : RBN α → Nat
  | .nil => 0
  | .node _ l _ r => size l + size r + 1

/-- Color of a tree's root; an absent node counts as Black. -/
def color : RBN α → Color
  | .nil => .black
  | .node c _ _ _ => c

/-- Whether the root, if present, is Black (an empty tree qualifies). -/
def isBlackN : RBN α → Bool
  | .nil => true
  | .node .black _ _ _ => true
  | .node .red _ _ _ => false

/-- Whether the tree is a nonempty node whose root is Black. -/
def isBlackNode : RBN α → Bool
  | .node .black _ _ _ => true
  | _ => false

/-- Repaint the root (used by the engine to force the root Black). -/
def paint (c : Color) : RBN α → RBN α
  | .nil => .nil
  | .node _ l k r => .node c l k r

/-- No-red-red invariant: a Red node never has a Red child. -/
def invc : RBN α → Bool
  | .nil => true
  | .node .black l _ r => invc l && invc r
  | .node .red l _ r => isBlackN l && isBlackN r && invc l && invc r

/-- Weak no-red-red invariant: both subtrees satisfy `invc`; the root itself
may be Red with a Red child. -/
def invc2 (t : RBN α) : Bool := invc (paint .black t)

/-- Black-height: number of Black nodes on the path to the leftmost absent
child. -/
def bheight : RBN α → Nat
  | .nil => 0
  | .node .black l _ _ => bheight l + 1
  | .node .red l _ _ => bheight l

/-- Uniform black-height: at every node both subtrees carry equal
black-height. -/
def invh : RBN α → Bool
  | .nil => true
  | .node _ l _ r => invh l && invh r && (bheight l == bheight r)

/-- Modelled from the spec: insert-fixup case for a left child, restoring the
no-red-red invariant below a Black grandparent (uncle-Black inner and outer
cases of the spec's insert-fixup; the uncle-Red case is the catch-all
recoloring). -/
def baliL : RBN α → α → RBN α → RBN α
  | .node .red (.node .red t1 a t2) b t3, c, t4 =>
      .node .red (.node .black t1 a t2) b (.node .black t3 c t4)
  | .node .red t1 a (.node .red t2 b t3), c, t4 =>
      .node .red (.node .black t1 a t2) b (.node .black t3 c t4)
  | l, a, r => .node .black l a r

/-- Modelled from the spec: insert-fixup case for a right child, mirror of
`baliL`. -/
def baliR : RBN α → α → RBN α → RBN α
  | t1, a, .node .red t2 b (.node .red t3 c t4) =>
      .node .red (.node .black t1 a t2) b (.node .black t3 c t4)
  | t1, a, .node .red (.node .red t2 b t3) c t4 =>
      .node .red (.node .black t1 a t2) b (.node .black t3 c t4)
  | l, a, r => .node .black l a r

variable (cmp : α → α → Ordering)

/-- Modelled from the spec: comparator-guided descent of `Tree.find`; returns
the key stored at the first node comparing equal, or `none` (the end
cursor) if absent. -/
def find? : RBN α → α → Option α
  | .nil, _ => none
  | .node _ l x r, k =>
    match cmp k x with
    | .lt => find? l k
    | .gt => find? r k
    | .eq => some x

/-- Modelled from the spec: recursive core of `insertUnique` — descend by the
comparator, no-op on an equal key, link the new node Red at an absent child,
and repair with the insert-fixup cases. -/
def insU : RBN α → α → RBN α
  | .nil, k => .node .red .nil k .nil
  | .node .black l x r, k =>
    match cmp k x with
    | .lt => baliL (insU l k) x r
    | .gt => baliR l x (insU r k)
    | .eq => .node .black l x r
  | .node .red l x r, k =>
    match cmp k x with
    | .lt => .node .red (insU l k) x r
    | .gt => .node .red l x (insU r k)
    | .eq => .node .red l x r

/-- Modelled from the spec: recursive core of `insertMulti` — as `insU`, but
an equal key descends right, placing the new node at the upper-bound
position among equal keys. -/
def insM : RBN α → α → RBN α
  | .nil, k => .node .red .nil k .nil
  | .node .black l x r, k =>
    match cmp k x with
    | .lt => baliL (insM l k) x r
    | .eq => baliR l x (insM r k)
    | .gt => baliR l x (insM r k)
  | .node .red l x r, k =>
    match cmp k x with
    | .lt => .node .red (insM l k) x r
    | .eq => .node .red l x (insM r k)
    | .gt => .node .red l x (insM r k)

/-- Modelled from the spec: recursive core of `insertOrReplace` — as `insU`,
but an equal key replaces the stored element in place. -/
def insR : RBN α → α → RBN α
  | .nil, k => .node .red .nil k .nil
  | .node .black l x r, k =>
    match cmp k x with
    | .lt => baliL (insR l k) x r
    | .gt => baliR l x (insR r k)
    | .eq => .node .black l k r
  | .node .red l x r, k =>
    match cmp k x with
    | .lt => .node .red (insR l k) x r
    | .gt => .node .red l x (insR r k)
    | .eq => .node .red l k r

/-- Modelled from the spec: `Tree.insertUnique` — run the descent and force
the root Black. -/
def insertUnique (t : RBN α) (k : α) : RBN α := paint .black (insU cmp t k)

/-- Modelled from the spec: `Tree.insertMulti`. -/
def insertMulti (t : RBN α) (k : α) : RBN α := paint .black (insM cmp t k)

/-- Modelled from the spec: `Tree.insertOrReplace`. -/
def insertOrReplace (t : RBN α) (k : α) : RBN α := paint .black (insR cmp t k)

/-- Modelled from the spec: delete-fixup step when the left subtree's
black-height dropped by one — the sibling-Red rotation, Black-sibling
recoloring and far-nephew-Red resolution cases of the spec's
delete-fixup. -/
def baldL : RBN α → α → RBN α → RBN α
  | .node .red t1 a t2, b, t3 => .node .red (.node .black t1 a t2) b t3
  | t1, a, .node .black t2 b t3 => baliR t1 a (.node .red t2 b t3)
  | t1, a, .node .red (.node .black t2 b t3) c t4 =>
      .node .red (.node .black t1 a t2) b (baliR t3 c (paint .red t4))
  | t1, a, t2 => .node .red t1 a t2

/-- Modelled from the spec: delete-fixup step when the right subtree's
black-height dropped by one, mirror of `baldL`. -/
def baldR : RBN α → α → RBN α → RBN α
  | t1, a, .node .red t2 b t3 => .node .red t1 a (.node .black t2 b t3)
  | .node .black t1 a t2, b, t3 => baliL (.node .red t1 a t2) b t3
  | .node .red t1 a (.node .black t2 b t3), c, t4 =>
      .node .red (baliL (paint .red t1) a t2) b (.node .black t3 c t4)
  | t1, a, t2 => .node .red t1 a t2

/-- Modelled from the spec: joining the two subtrees of an erased node —
`erase` relinks the erased node's subtrees and resolves the resulting
double-black deficiency with the delete-fixup steps. -/
def join : RBN α → RBN α → RBN α
  | .nil, t => t
  | t, .nil => t
  | .node .red t1 a t2, .node .red t3 c t4 =>
    match join t2 t3 with
    | .node .red u2 b u3 => .node .red (.node .red t1 a u2) b (.node .red u3 c t4)
    | t23 => .node .red t1 a (.node .red t23 c t4)
  | .node .black t1 a t2, .node .black t3 c t4 =>
    match join t2 t3 with
    | .node .red u2 b u3 => .node .red (.node .black t1 a u2) b (.node .black u3 c t4)
    | t23 => baldL t1 a (.node .black t23 c t4)
  | t1, .node .red t2 a t3 => .node .red (join t1 t2) a t3
  | .node .red t1 a t2, t3 => .node .red t1 a (join t2 t3)
termination_by t1 t2 => size t1 + size t2
decreasing_by all_goals simp [size]; omega

/-- Modelled from the spec: recursive core of `Tree.erase` — descend to the
node the comparator finds equal, relink its subtrees, and repair
black-height deficiencies on the way back up with the delete-fixup
steps. -/
def del : RBN α → α → RBN α
  | .nil, _ => .nil
  | .node _ l x r, k =>
    match cmp k x with
    | .lt => if isBlackNode l then baldL (del l k) x r else .node .red (del l k) x r
    | .gt => if isBlackNode r then baldR l x (del r k) else .node .red l x (del r k)
    | .eq => join l r

/-- Modelled from the spec: `Tree.erase` of the node located by
comparator-guided descent on key `k`; the root is forced Black at the
end. -/
def erase (t : RBN α) (k : α) : RBN α := paint .black (del cmp t k)

end RBN

/-- Modelled from the spec: the public mutating operations of the tree
engine, used to describe reachable tree states. -/
inductive Op (α : Type) where
  | insU (k : α)
  | insM (k : α)
  | insR (k : α)
  | erase (k : α)
  | clear
deriving Repr, DecidableEq

namespace Op

variable {α : Type} (cmp : α → α → Ordering)

/-- Apply one public mutating operation to a tree. -/
def apply : Op α → RBN α → RBN α
  | .insU k, t => RBN.insertUnique cmp t k
  | .insM k, t => RBN.insertMulti cmp t k
  | .insR k, t => RBN.insertOrReplace cmp t k
  | .erase k, t => RBN.erase cmp t k
  | .clear, _ => .nil

/-- Run a sequence of public mutating operations from the empty tree; the
results are exactly the reachable tree states. -/
def run (ops : List (Op α)) : RBN α :=
  ops.foldl (fun t op => apply cmp op t) .nil

/-- Whether a sequence uses only the unique-key-policy mutators (no
`insertMulti`). -/
def uniquePolicy : List (Op α) → Bool
  | [] => true
  | .insM _ :: _ => false
  | _ :: ops => uniquePolicy ops

end Op

end Jstreemap

namespace Jstreemap
namespace RBN
variable {α : Type}

theorem toList_paint (c : Color) (t : RBN α) : toList (paint c t) = toList t := by
  cases t <;> simp [paint, toList]

theorem toList_baliL (l : RBN α) (a : α) (r : RBN α) :
    toList (baliL l a r) = toList l ++ a :: toList r := by
  unfold baliL; split <;> simp [toList]

theorem toList_baliR (l : RBN α) (a : α) (r : RBN α) :
    toList (baliR l a r) = toList l ++ a :: toList r := by
  unfold baliR; split <;> simp [toList]

theorem toList_baldL (l : RBN α) (a : α) (r : RBN α) :
    toList (baldL l a r) = toList l ++ a :: toList r := by
  unfold baldL; split <;> simp [toList, toList_baliR, toList_paint]

theorem toList_baldR (l : RBN α) (a : α) (r : RBN α) :
    toList (baldR l a r) = toList l ++ a :: toList r := by
  unfold baldR; split <;> simp [toList, toList_baliL, toList_paint]

theorem splice_aux {u2 u3 t2 t3 : List α} (b : α) (X : List α)
    (h : u2 ++ b :: u3 = t2 ++ t3) :
    u2 ++ b :: (u3 ++ X) = t2 ++ (t3 ++ X) := by
  have h2 := congrArg (fun z => z ++ X) h
  simpa [List.append_assoc] using h2

theorem toList_join (l r : RBN α) : toList (join l r) = toList l ++ toList r := by
  induction l, r using join.induct <;> simp_all [join, toList, toList_baldL] <;>
    (rename_i ih; exact splice_aux _ _ ih)

theorem length_toList (t : RBN α) : (toList t).length = size t := by
  induction t with
  | nil => rfl
  | node c l k r ihl ihr => simp [toList, size, ihl, ihr]; omega

end RBN
end Jstreemap

namespace Jstreemap
namespace RBN
variable {α : Type}

theorem invc2_of_invc {t : RBN α} (h : invc t = true) : invc2 t = true := by
  cases t with
  | nil => rfl
  | node c l k r => cases c <;> simp_all [invc, invc2, paint]

theorem invc_of_invc2 {l : RBN α}
    (h : invc2 l = true)
    (h1 : ∀ t1 a t2 b t3, ¬ l = node .red (node .red t1 a t2) b t3)
    (h2 : ∀ t1 a t2 b t3, ¬ l = node .red t1 a (node .red t2 b t3)) :
    invc l = true := by
  rcases l with _ | ⟨c, l1, x, r1⟩
  · rfl
  cases c with
  | black => simpa [invc2, paint, invc] using h
  | red =>
    have hbl : isBlackN l1 = true := by
      rcases l1 with _ | ⟨cl, l2, y, r2⟩
      · rfl
      cases cl with
      | black => rfl
      | red => exact absurd rfl (h1 l2 y r2 x r1)
    have hbr : isBlackN r1 = true := by
      rcases r1 with _ | ⟨cr, l2, y, r2⟩
      · rfl
      cases cr with
      | black => rfl
      | red => exact absurd rfl (h2 l1 x l2 y r2)
    simp_all [invc2, paint, invc]

theorem invc_baliL {l r : RBN α} (a : α) (hl : invc2 l = true) (hr : invc r = true) :
    invc (baliL l a r) = true := by
  unfold baliL; split
  · simp_all [invc, invc2, paint, isBlackN]
  · simp_all [invc, invc2, paint, isBlackN]
  · rename_i h1 h2
    have hc := invc_of_invc2 hl h1 h2
    simp_all [invc]

theorem invc_baliR {l r : RBN α} (a : α) (hl : invc l = true) (hr : invc2 r = true) :
    invc (baliR l a r) = true := by
  unfold baliR; split
  · simp_all [invc, invc2, paint, isBlackN]
  · simp_all [invc, invc2, paint, isBlackN]
  · rename_i h1 h2
    have hc := invc_of_invc2 hr h2 h1
    simp_all [invc]

theorem bheight_baliL {l r : RBN α} (a : α) (h : bheight l = bheight r) :
    bheight (baliL l a r) = bheight l + 1 := by
  unfold baliL; split <;> simp_all [bheight]

theorem bheight_baliR {l r : RBN α} (a : α) (h : bheight l = bheight r) :
    bheight (baliR l a r) = bheight l + 1 := by
  unfold baliR; split <;> simp_all [bheight]

theorem invh_baliL {l r : RBN α} (a : α) (hl : invh l = true) (hr : invh r = true)
    (h : bheight l = bheight r) : invh (baliL l a r) = true := by
  unfold baliL; split <;> simp_all [invh, bheight]

theorem invh_baliR {l r : RBN α} (a : α) (hl : invh l = true) (hr : invh r = true)
    (h : bheight l = bheight r) : invh (baliR l a r) = true := by
  unfold baliR; split <;> simp_all [invh, bheight]
  omega

end RBN
end Jstreemap

namespace Jstreemap
namespace RBN
variable {α : Type} (cmp : α → α → Ordering)

theorem invc_insU {t : RBN α} {k : α} (h : invc t = true) :
    invc2 (insU cmp t k) = true ∧ (isBlackN t = true → invc (insU cmp t k) = true) := by
  induction t, k using insU.induct cmp with
  | case1 k => simp [insU, invc2, invc, paint, isBlackN]
  | case2 l x r k hc ih =>
    simp only [invc, Bool.and_eq_true] at h
    have h2 := ih h.1
    have hb : invc (baliL (insU cmp l k) x r) = true := invc_baliL x h2.1 h.2
    simp [insU, hc, invc2_of_invc hb, hb, isBlackN]
  | case3 l x r k hc ih =>
    simp only [invc, Bool.and_eq_true] at h
    have h2 := ih h.2
    have hb : invc (baliR l x (insU cmp r k)) = true := invc_baliR x h.1 h2.1
    simp [insU, hc, invc2_of_invc hb, hb, isBlackN]
  | case4 l x r k hc =>
    simp [insU, hc, invc2_of_invc h, h, isBlackN]
  | case5 l x r k hc ih =>
    simp only [invc, Bool.and_eq_true] at h
    have h2 := (ih h.1.2).2 h.1.1.1
    simp [insU, hc, invc2, paint, invc, h2, h.2, isBlackN]
  | case6 l x r k hc ih =>
    simp only [invc, Bool.and_eq_true] at h
    have h2 := (ih h.2).2 h.1.1.2
    simp [insU, hc, invc2, paint, invc, h2, h.1.2, isBlackN]
  | case7 l x r k hc =>
    simp only [invc, Bool.and_eq_true] at h
    simp [insU, hc, invc2, paint, invc, h.1.2, h.2, isBlackN]

theorem invh_insU {t : RBN α} {k : α} (h : invh t = true) :
    invh (insU cmp t k) = true ∧ bheight (insU cmp t k) = bheight t := by
  induction t, k using insU.induct cmp with
  | case1 k => simp [insU, invh, bheight]
  | case2 l x r k hc ih =>
    simp only [invh, Bool.and_eq_true, beq_iff_eq] at h
    have h2 := ih h.1.1
    rw [show insU cmp (node Color.black l x r) k = baliL (insU cmp l k) x r by simp [insU, hc]]
    refine ⟨invh_baliL x h2.1 h.1.2 (by omega), ?_⟩
    rw [bheight_baliL x (by omega)]
    simp [bheight]; omega
  | case3 l x r k hc ih =>
    simp only [invh, Bool.and_eq_true, beq_iff_eq] at h
    have h2 := ih h.1.2
    rw [show insU cmp (node Color.black l x r) k = baliR l x (insU cmp r k) by simp [insU, hc]]
    refine ⟨invh_baliR x h.1.1 h2.1 (by omega), ?_⟩
    rw [bheight_baliR x (by omega)]
    simp [bheight]
  | case4 l x r k hc => simp_all [insU, hc]
  | case5 l x r k hc ih =>
    simp only [invh, Bool.and_eq_true, beq_iff_eq] at h
    have h2 := ih h.1.1
    simp [insU, hc, invh, bheight, h2.1, h2.2, h.1.2, h.2]
  | case6 l x r k hc ih =>
    simp only [invh, Bool.and_eq_true, beq_iff_eq] at h
    have h2 := ih h.1.2
    simp [insU, hc, invh, bheight, h2.1, h2.2, h.1.1, h.2]
  | case7 l x r k hc => simp_all [insU, hc]

end RBN
end Jstreemap

namespace Jstreemap
namespace RBN
variable {α : Type} (cmp : α → α → Ordering)

theorem invc_insM {t : RBN α} {k : α} (h : invc t = true) :
    invc2 (insM cmp t k) = true ∧ (isBlackN t = true → invc (insM cmp t k) = true) := by
  induction t, k using insM.induct cmp with
  | case1 k => simp [insM, invc2, invc, paint, isBlackN]
  | case2 l x r k hc ih =>
    simp only [invc, Bool.and_eq_true] at h
    have h2 := ih h.1
    have hb : invc (baliL (insM cmp l k) x r) = true := invc_baliL x h2.1 h.2
    simp [insM, hc, invc2_of_invc hb, hb, isBlackN]
  | case3 l x r k hc ih =>
    simp only [invc, Bool.and_eq_true] at h
    have h2 := ih h.2
    have hb : invc (baliR l x (insM cmp r k)) = true := invc_baliR x h.1 h2.1
    simp [insM, hc, invc2_of_invc hb, hb, isBlackN]
  | case4 l x r k hc ih =>
    simp only [invc, Bool.and_eq_true] at h
    have h2 := ih h.2
    have hb : invc (baliR l x (insM cmp r k)) = true := invc_baliR x h.1 h2.1
    simp [insM, hc, invc2_of_invc hb, hb, isBlackN]
  | case5 l x r k hc ih =>
    simp only [invc, Bool.and_eq_true] at h
    have h2 := (ih h.1.2).2 h.1.1.1
    simp [insM, hc, invc2, paint, invc, h2, h.2, isBlackN]
  | case6 l x r k hc ih =>
    simp only [invc, Bool.and_eq_true] at h
    have h2 := (ih h.2).2 h.1.1.2
    simp [insM, hc, invc2, paint, invc, h2, h.1.2, isBlackN]
  | case7 l x r k hc ih =>
    simp only [invc, Bool.and_eq_true] at h
    have h2 := (ih h.2).2 h.1.1.2
    simp [insM, hc, invc2, paint, invc, h2, h.1.2, isBlackN]

theorem invh_insM {t : RBN α} {k : α} (h : invh t = true) :
    invh (insM cmp t k) = true ∧ bheight (insM cmp t k) = bheight t := by
  induction t, k using insM.induct cmp with
  | case1 k => simp [insM, invh, bheight]
  | case2 l x r k hc ih =>
    simp only [invh, Bool.and_eq_true, beq_iff_eq] at h
    have h2 := ih h.1.1
    rw [show insM cmp (node Color.black l x r) k = baliL (insM cmp l k) x r by simp [insM, hc]]
    refine ⟨invh_baliL x h2.1 h.1.2 (by omega), ?_⟩
    rw [bheight_baliL x (by omega)]
    simp [bheight]; omega
  | case3 l x r k hc ih =>
    simp only [invh, Bool.and_eq_true, beq_iff_eq] at h
    have h2 := ih h.1.2
    rw [show insM cmp (node Color.black l x r) k = baliR l x (insM cmp r k) by simp [insM, hc]]
    refine ⟨invh_baliR x h.1.1 h2.1 (by omega), ?_⟩
    rw [bheight_baliR x (by omega)]
    simp [bheight]
  | case4 l x r k hc ih =>
    simp only [invh, Bool.and_eq_true, beq_iff_eq] at h
    have h2 := ih h.1.2
    rw [show insM cmp (node Color.black l x r) k = baliR l x (insM cmp r k) by simp [insM, hc]]
    refine ⟨invh_baliR x h.1.1 h2.1 (by omega), ?_⟩
    rw [bheight_baliR x (by omega)]
    simp [bheight]
  | case5 l x r k hc ih =>
    simp only [invh, Bool.and_eq_true, beq_iff_eq] at h
    have h2 := ih h.1.1
    simp [insM, hc, invh, bheight, h2.1, h2.2, h.1.2, h.2]
  | case6 l x r k hc ih =>
    simp only [invh, Bool.and_eq_true, beq_iff_eq] at h
    have h2 := ih h.1.2
    simp [insM, hc, invh, bheight, h2.1, h2.2, h.1.1, h.2]
  | case7 l x r k hc ih =>
    simp only [invh, Bool.and_eq_true, beq_iff_eq] at h
    have h2 := ih h.1.2
    simp [insM, hc, invh, bheight, h2.1, h2.2, h.1.1, h.2]

theorem invc_insR {t : RBN α} {k : α} (h : invc t = true) :
    invc2 (insR cmp t k) = true ∧ (isBlackN t = true → invc (insR cmp t k) = true) := by
  induction t, k using insR.induct cmp with
  | case1 k => simp [insR, invc2, invc, paint, isBlackN]
  | case2 l x r k hc ih =>
    simp only [invc, Bool.and_eq_true] at h
    have h2 := ih h.1
    have hb : invc (baliL (insR cmp l k) x r) = true := invc_baliL x h2.1 h.2
    simp [insR, hc, invc2_of_invc hb, hb, isBlackN]
  | case3 l x r k hc ih =>
    simp only [invc, Bool.and_eq_true] at h
    have h2 := ih h.2
    have hb : invc (baliR l x (insR cmp r k)) = true := invc_baliR x h.1 h2.1
    simp [insR, hc, invc2_of_invc hb, hb, isBlackN]
  | case4 l x r k hc =>
    simp only [invc, Bool.and_eq_true] at h
    simp [insR, hc, invc2, paint, invc, h.1, h.2, isBlackN]
  | case5 l x r k hc ih =>
    simp only [invc, Bool.and_eq_true] at h
    have h2 := (ih h.1.2).2 h.1.1.1
    simp [insR, hc, invc2, paint, invc, h2, h.2, isBlackN]
  | case6 l x r k hc ih =>
    simp only [invc, Bool.and_eq_true] at h
    have h2 := (ih h.2).2 h.1.1.2
    simp [insR, hc, invc2, paint, invc, h2, h.1.2, isBlackN]
  | case7 l x r k hc =>
    simp only [invc, Bool.and_eq_true] at h
    simp [insR, hc, invc2, paint, invc, h.1.1.1, h.1.1.2, h.1.2, h.2, isBlackN]

theorem invh_insR {t : RBN α} {k : α} (h : invh t = true) :
    invh (insR cmp t k) = true ∧ bheight (insR cmp t k) = bheight t := by
  induction t, k using insR.induct cmp with
  | case1 k => simp [insR, invh, bheight]
  | case2 l x r k hc ih =>
    simp only [invh, Bool.and_eq_true, beq_iff_eq] at h
    have h2 := ih h.1.1
    rw [show insR cmp (node Color.black l x r) k = baliL (insR cmp l k) x r by simp [insR, hc]]
    refine ⟨invh_baliL x h2.1 h.1.2 (by omega), ?_⟩
    rw [bheight_baliL x (by omega)]
    simp [bheight]; omega
  | case3 l x r k hc ih =>
    simp only [invh, Bool.and_eq_true, beq_iff_eq] at h
    have h2 := ih h.1.2
    rw [show insR cmp (node Color.black l x r) k = baliR l x (insR cmp r k) by simp [insR, hc]]
    refine ⟨invh_baliR x h.1.1 h2.1 (by omega), ?_⟩
    rw [bheight_baliR x (by omega)]
    simp [bheight]
  | case4 l x r k hc => simp_all [insR, hc, invh, bheight]
  | case5 l x r k hc ih =>
    simp only [invh, Bool.and_eq_true, beq_iff_eq] at h
    have h2 := ih h.1.1
    simp [insR, hc, invh, bheight, h2.1, h2.2, h.1.2, h.2]
  | case6 l x r k hc ih =>
    simp only [invh, Bool.and_eq_true, beq_iff_eq] at h
    have h2 := ih h.1.2
    simp [insR, hc, invh, bheight, h2.1, h2.2, h.1.1, h.2]
  | case7 l x r k hc => simp_all [insR, hc, invh, bheight]

end RBN
end Jstreemap

namespace Jstreemap
namespace RBN
variable {α : Type} (cmp : α → α → Ordering)

theorem invh_paint (c : Color) (t : RBN α) : invh (paint c t) = invh t := by
  cases t <;> cases c <;> simp [paint, invh]

theorem invc2_paint (c : Color) (t : RBN α) : invc2 (paint c t) = invc2 t := by
  cases t <;> simp [paint, invc2]

theorem invc_eq_invc2_of_black {t : RBN α} (hb : isBlackN t = true) :
    invc t = invc2 t := by
  rcases t with _ | ⟨c, l, x, r⟩
  · rfl
  cases c
  · simp [isBlackN] at hb
  · simp [invc2, paint]

theorem bheight_paint_red {t : RBN α} (hb : isBlackNode t = true) :
    bheight (paint .red t) + 1 = bheight t := by
  rcases t with _ | ⟨c, l, x, r⟩
  · simp [isBlackNode] at hb
  cases c
  · simp [isBlackNode] at hb
  · simp [paint, bheight]

theorem invh_baldL_invc {l r : RBN α} (a : α) (hl : invh l = true) (hr : invh r = true)
    (hb : bheight l + 1 = bheight r) (hc : invc r = true) :
    invh (baldL l a r) = true ∧ bheight (baldL l a r) = bheight r := by
  unfold baldL; split
  · simp_all [invh, bheight]
  · rename_i t2 b t3 hnl
    constructor
    · refine invh_baliR a hl ?_ ?_
      · simp_all [invh]
      · simp [bheight]; simp [bheight] at hb; omega
    · rw [bheight_baliR a (by simp [bheight]; simp [bheight] at hb; omega)]
      simp [bheight] at hb ⊢; omega
  · rename_i t2 b t3 c2 t4 hnl
    have ht4 : isBlackNode t4 = true := by
      rcases t4 with _ | ⟨c4, l4, x4, r4⟩
      · exfalso; simp [invh, bheight] at hr hb
      cases c4
      · exfalso; simp [invc, isBlackN] at hc
      · rfl
    have hp := bheight_paint_red ht4
    simp only [invh, bheight, Bool.and_eq_true, beq_iff_eq] at hr hb
    obtain ⟨⟨⟨⟨h2, h3⟩, h23⟩, h4⟩, h24⟩ := hr
    have hbali : invh (baliR t3 c2 (paint .red t4)) = true :=
      invh_baliR c2 h3 (by rw [invh_paint]; exact h4) (by omega)
    have hbbali : bheight (baliR t3 c2 (paint .red t4)) = bheight t3 + 1 :=
      bheight_baliR c2 (by omega)
    constructor
    · simp [invh, bheight, hl, h2, h3, h23, hbali, hbbali]; omega
    · simp [bheight]; omega
  · rename_i hnl hnb hnr
    exfalso
    rcases r with _ | ⟨c2, l2, y, r2⟩
    · simp [bheight] at hb
    cases c2
    · rcases l2 with _ | ⟨c3, l3, z, r3⟩
      · simp [bheight] at hb
      cases c3
      · simp [invc, isBlackN] at hc
      · exact hnr l3 z r3 y r2 rfl
    · exact hnb l2 y r2 rfl

end RBN
end Jstreemap

namespace Jstreemap
namespace RBN
variable {α : Type}

theorem isBlackN_of_not_red {l : RBN α}
    (h : ∀ t1 (a : α) t2, l = node .red t1 a t2 → False) : isBlackN l = true := by
  rcases l with _ | ⟨c, l1, x, r1⟩
  · rfl
  cases c
  · exact absurd rfl (h l1 x r1)
  · rfl

theorem invh_baldL_black {l r : RBN α} (a : α) (hl : invh l = true) (hr : invh r = true)
    (hb : bheight l + 1 = bheight r) (hc : isBlackN r = true) :
    invh (baldL l a r) = true ∧ bheight (baldL l a r) = bheight r := by
  unfold baldL; split
  · simp_all [invh, bheight]
  · rename_i t2 b t3 hnl
    constructor
    · refine invh_baliR a hl ?_ ?_
      · simp_all [invh]
      · simp [bheight]; simp [bheight] at hb; omega
    · rw [bheight_baliR a (by simp [bheight]; simp [bheight] at hb; omega)]
      simp [bheight] at hb ⊢; omega
  · rename_i t2 b t3 c2 t4 hnl
    simp [isBlackN] at hc
  · rename_i hnl hnb hnr
    exfalso
    rcases r with _ | ⟨c2, l2, y, r2⟩
    · simp [bheight] at hb
    cases c2
    · simp [isBlackN] at hc
    · exact hnb l2 y r2 rfl

theorem invc_baldL {l r : RBN α} (a : α) (hl : invc2 l = true) (hr : invc r = true)
    (hc : isBlackN r = true) : invc (baldL l a r) = true := by
  unfold baldL; split
  · simp_all [invc2, paint, invc, isBlackN]
  · rename_i t2 b t3 hnl
    have hbl : isBlackN l = true := isBlackN_of_not_red hnl
    have hil : invc l = true := by rw [invc_eq_invc2_of_black hbl]; exact hl
    refine invc_baliR a hil ?_
    simp only [invc, Bool.and_eq_true] at hr
    simp [invc2, paint, invc, hr.1, hr.2]
  · rename_i t2 b t3 c2 t4 hnl
    simp [isBlackN] at hc
  · rename_i hnl hnb hnr
    have hbl : isBlackN l = true := isBlackN_of_not_red hnl
    have hil : invc l = true := by rw [invc_eq_invc2_of_black hbl]; exact hl
    simp [invc, hbl, hc, hil, hr]

theorem invc2_baldL {l r : RBN α} (a : α) (hl : invc2 l = true) (hr : invc r = true) :
    invc2 (baldL l a r) = true := by
  unfold baldL; split
  · rename_i t1 b t2 t3
    simp only [invc2, paint, invc, Bool.and_eq_true] at hl
    simp [invc2, paint, invc, isBlackN, hl.1, hl.2, hr]
  · rename_i t2 b t3 hnl
    have hbl : isBlackN l = true := isBlackN_of_not_red hnl
    have hil : invc l = true := by rw [invc_eq_invc2_of_black hbl]; exact hl
    refine invc2_of_invc (invc_baliR a hil ?_)
    simp only [invc, Bool.and_eq_true] at hr
    simp [invc2, paint, invc, hr.1, hr.2]
  · rename_i t2 b t3 c2 t4 hnl
    have hbl : isBlackN l = true := isBlackN_of_not_red hnl
    have hil : invc l = true := by rw [invc_eq_invc2_of_black hbl]; exact hl
    simp only [invc, isBlackN, Bool.and_eq_true, true_and] at hr
    obtain ⟨⟨hb4n, h2, h3⟩, h4⟩ := hr
    have hb4 : invc (baliR t3 c2 (paint .red t4)) = true := by
      refine invc_baliR c2 h3 ?_
      rw [invc2_paint]
      exact invc2_of_invc h4
    show invc (node .black (node .black l a t2) b (baliR t3 c2 (paint .red t4))) = true
    simp [invc, hil, h2, hb4]
  · rename_i hnl hnb hnr
    have hbl : isBlackN l = true := isBlackN_of_not_red hnl
    have hil : invc l = true := by rw [invc_eq_invc2_of_black hbl]; exact hl
    simp [invc2, paint, invc, hil, hr]

end RBN
end Jstreemap

namespace Jstreemap
namespace RBN
variable {α : Type}

theorem isBlackN_nil : isBlackN (nil : RBN α) = true := rfl

theorem isBlackN_black (l : RBN α) (k : α) (r : RBN α) :
    isBlackN (node .black l k r) = true := rfl

theorem isBlackN_red (l : RBN α) (k : α) (r : RBN α) :
    isBlackN (node .red l k r) = false := rfl

theorem invh_baldR_invc {l r : RBN α} (a : α) (hl : invh l = true) (hr : invh r = true)
    (hb : bheight r + 1 = bheight l) (hc : invc l = true) :
    invh (baldR l a r) = true ∧ bheight (baldR l a r) = bheight l := by
  unfold baldR; split
  · simp_all [invh, bheight]
  · rename_i t1 a2 t2 hnr
    constructor
    · refine invh_baliL a ?_ hr ?_
      · simp_all [invh]
      · simp [bheight]; simp [bheight] at hb; omega
    · rw [bheight_baliL a (by simp [bheight]; simp [bheight] at hb; omega)]
      simp [bheight] at hb ⊢
  · rename_i t1 a2 t2 b2 t3 hnr
    have ht1 : isBlackNode t1 = true := by
      rcases t1 with _ | ⟨c4, l4, x4, r4⟩
      · exfalso; simp [invh, bheight] at hl
      cases c4
      · exfalso; simp [invc, isBlackN] at hc
      · rfl
    have hp := bheight_paint_red ht1
    simp only [invh, bheight, Bool.and_eq_true, beq_iff_eq] at hl hb
    obtain ⟨⟨h1, ⟨⟨h2, h3⟩, h23⟩⟩, h123⟩ := hl
    have hbali : invh (baliL (paint .red t1) a2 t2) = true :=
      invh_baliL a2 (by rw [invh_paint]; exact h1) h2 (by omega)
    have hbbali : bheight (baliL (paint .red t1) a2 t2) = bheight (paint .red t1) + 1 :=
      bheight_baliL a2 (by omega)
    constructor
    · simp [invh, bheight, hr, h3, h23, hbali, hbbali]; omega
    · simp [bheight, hbbali]; omega
  · rename_i hnbl hnrb hnr
    exfalso
    rcases l with _ | ⟨c2, l2, y, r2⟩
    · simp [bheight] at hb
    cases c2
    · rcases r2 with _ | ⟨c3, l3, z, r3⟩
      · simp [invh, bheight] at hl hb; omega
      cases c3
      · simp [invc, isBlackN] at hc
      · exact hnrb l2 y l3 z r3 rfl
    · exact hnbl l2 y r2 rfl

theorem invh_baldR_black {l r : RBN α} (a : α) (hl : invh l = true) (hr : invh r = true)
    (hb : bheight r + 1 = bheight l) (hc : isBlackN l = true) :
    invh (baldR l a r) = true ∧ bheight (baldR l a r) = bheight l := by
  unfold baldR; split
  · simp_all [invh, bheight]
  · rename_i t1 a2 t2 hnr
    constructor
    · refine invh_baliL a ?_ hr ?_
      · simp_all [invh]
      · simp [bheight]; simp [bheight] at hb; omega
    · rw [bheight_baliL a (by simp [bheight]; simp [bheight] at hb; omega)]
      simp [bheight] at hb ⊢
  · rename_i t1 a2 t2 b2 t3 hnr
    simp [isBlackN] at hc
  · rename_i hnbl hnrb hnr
    exfalso
    rcases l with _ | ⟨c2, l2, y, r2⟩
    · simp [bheight] at hb
    cases c2
    · simp [isBlackN] at hc
    · exact hnbl l2 y r2 rfl

theorem invc_baldR {l r : RBN α} (a : α) (hl : invc l = true) (hr : invc2 r = true)
    (hc : isBlackN l = true) : invc (baldR l a r) = true := by
  unfold baldR; split
  · rename_i t2 b2 t3
    simp only [invc2, paint, invc, Bool.and_eq_true] at hr
    simp [invc, isBlackN_black, hr.1, hr.2, hl, hc]
  · rename_i t1 a2 t2 hnr
    have hbr : isBlackN r = true := isBlackN_of_not_red hnr
    have hir : invc r = true := by rw [invc_eq_invc2_of_black hbr]; exact hr
    refine invc_baliL a ?_ hir
    simp only [invc, Bool.and_eq_true] at hl
    simp [invc2, paint, invc, hl.1, hl.2]
  · rename_i t1 a2 t2 b2 t3 hnr
    simp [isBlackN] at hc
  · rename_i hnbl hnrb hnr
    have hbr : isBlackN r = true := isBlackN_of_not_red hnr
    have hir : invc r = true := by rw [invc_eq_invc2_of_black hbr]; exact hr
    simp [invc, hbr, hc, hir, hl]

theorem invc2_baldR {l r : RBN α} (a : α) (hl : invc l = true) (hr : invc2 r = true) :
    invc2 (baldR l a r) = true := by
  unfold baldR; split
  · rename_i t2 b2 t3
    simp only [invc2, paint, invc, Bool.and_eq_true] at hr
    show invc (node .black l a (node .black t2 b2 t3)) = true
    simp [invc, hr.1, hr.2, hl]
  · rename_i t1 a2 t2 hnr
    have hbr : isBlackN r = true := isBlackN_of_not_red hnr
    have hir : invc r = true := by rw [invc_eq_invc2_of_black hbr]; exact hr
    refine invc2_of_invc (invc_baliL a ?_ hir)
    simp only [invc, Bool.and_eq_true] at hl
    simp [invc2, paint, invc, hl.1, hl.2]
  · rename_i t1 a2 t2 b2 t3 hnr
    have hbr : isBlackN r = true := isBlackN_of_not_red hnr
    have hir : invc r = true := by rw [invc_eq_invc2_of_black hbr]; exact hr
    simp only [invc, isBlackN_black, Bool.and_eq_true, true_and, and_true] at hl
    obtain ⟨⟨hb1, h1⟩, h2, h3⟩ := hl
    have hbali : invc (baliL (paint .red t1) a2 t2) = true := by
      refine invc_baliL a2 ?_ h2
      rw [invc2_paint]
      exact invc2_of_invc h1
    show invc (node .black (baliL (paint .red t1) a2 t2) b2 (node .black t3 a r)) = true
    simp [invc, hbali, h3, hir]
  · rename_i hnbl hnrb hnr
    have hbr : isBlackN r = true := isBlackN_of_not_red hnr
    have hir : invc r = true := by rw [invc_eq_invc2_of_black hbr]; exact hr
    simp [invc2, paint, invc, hl, hir]

end RBN
end Jstreemap

namespace Jstreemap
namespace RBN
variable {α : Type}

theorem invh_join {l r : RBN α} (hl : invh l = true) (hr : invh r = true)
    (hb : bheight l = bheight r) :
    invh (join l r) = true ∧ bheight (join l r) = bheight l := by
  induction l, r using join.induct with
  | case1 t => simp_all [join, bheight]
  | case2 t hn => simp_all [join.eq_def]
  | case3 t1 a t2 t3 c t4 u2 b u3 heq ih =>
    simp only [invh, bheight, Bool.and_eq_true, beq_iff_eq] at hl hr hb
    obtain ⟨⟨h1, h2⟩, h12⟩ := hl
    obtain ⟨⟨h3, h4⟩, h34⟩ := hr
    have ih2 := ih h2 h3 (by omega)
    rw [heq] at ih2
    simp only [invh, bheight, Bool.and_eq_true, beq_iff_eq] at ih2
    obtain ⟨⟨⟨hu2, hu3⟩, huu⟩, hub⟩ := ih2
    rw [show (node .red t1 a t2).join (node .red t3 c t4)
        = node .red (node .red t1 a u2) b (node .red u3 c t4) by rw [join, heq]]
    constructor
    · simp only [invh, bheight, Bool.and_eq_true, beq_iff_eq]
      refine ⟨⟨⟨⟨h1, hu2⟩, by omega⟩, ⟨⟨hu3, h4⟩, by omega⟩⟩, by omega⟩
    · simp [bheight]
  | case4 t1 a t2 t3 c t4 hne ih =>
    simp only [invh, bheight, Bool.and_eq_true, beq_iff_eq] at hl hr hb
    obtain ⟨⟨h1, h2⟩, h12⟩ := hl
    obtain ⟨⟨h3, h4⟩, h34⟩ := hr
    have ih2 := ih h2 h3 (by omega)
    obtain ⟨hji, hjb⟩ := ih2
    rw [show (node .red t1 a t2).join (node .red t3 c t4)
        = node .red t1 a (node .red (t2.join t3) c t4) by
      rw [join]
      rcases hj : t2.join t3 with _ | ⟨cj, lj, xj, rj⟩
      · rfl
      cases cj
      · exact absurd hj (fun h => hne lj xj rj h)
      · rfl]
    constructor
    · simp only [invh, bheight, Bool.and_eq_true, beq_iff_eq]
      exact ⟨⟨h1, ⟨⟨hji, h4⟩, by omega⟩⟩, by omega⟩
    · simp [bheight]
  | case5 t1 a t2 t3 c t4 u2 b u3 heq ih =>
    simp only [invh, bheight, Bool.and_eq_true, beq_iff_eq] at hl hr hb
    obtain ⟨⟨h1, h2⟩, h12⟩ := hl
    obtain ⟨⟨h3, h4⟩, h34⟩ := hr
    have ih2 := ih h2 h3 (by omega)
    rw [heq] at ih2
    simp only [invh, bheight, Bool.and_eq_true, beq_iff_eq] at ih2
    obtain ⟨⟨⟨hu2, hu3⟩, huu⟩, hub⟩ := ih2
    rw [show (node .black t1 a t2).join (node .black t3 c t4)
        = node .red (node .black t1 a u2) b (node .black u3 c t4) by rw [join, heq]]
    constructor
    · simp only [invh, bheight, Bool.and_eq_true, beq_iff_eq]
      refine ⟨⟨⟨⟨h1, hu2⟩, by omega⟩, ⟨⟨hu3, h4⟩, by omega⟩⟩, by omega⟩
    · simp [bheight]
  | case6 t1 a t2 t3 c t4 hne ih =>
    simp only [invh, bheight, Bool.and_eq_true, beq_iff_eq] at hl hr hb
    obtain ⟨⟨h1, h2⟩, h12⟩ := hl
    obtain ⟨⟨h3, h4⟩, h34⟩ := hr
    have ih2 := ih h2 h3 (by omega)
    obtain ⟨hji, hjb⟩ := ih2
    rw [show (node .black t1 a t2).join (node .black t3 c t4)
        = baldL t1 a (node .black (t2.join t3) c t4) by
      rw [join]
      rcases hj : t2.join t3 with _ | ⟨cj, lj, xj, rj⟩
      · rfl
      cases cj
      · exact absurd hj (fun h => hne lj xj rj h)
      · rfl]
    have hrr : invh (node .black (t2.join t3) c t4) = true := by
      simp only [invh, Bool.and_eq_true, beq_iff_eq]
      exact ⟨⟨hji, h4⟩, by omega⟩
    have hbb : bheight t1 + 1 = bheight (node .black (t2.join t3) c t4) := by
      simp only [bheight]; omega
    have hbd := invh_baldL_black a h1 hrr hbb (isBlackN_black _ _ _)
    refine ⟨hbd.1, ?_⟩
    rw [hbd.2]
    simp only [bheight]; omega
  | case7 t1 t2 a t3 hnn hnr ih =>
    simp only [invh, bheight, Bool.and_eq_true, beq_iff_eq] at hr hb
    obtain ⟨⟨h3, h4⟩, h34⟩ := hr
    have ih2 := ih hl h3 (by omega)
    obtain ⟨hji, hjb⟩ := ih2
    rw [show t1.join (node .red t2 a t3) = node .red (t1.join t2) a t3 by
      rw [join.eq_def]
      rcases t1 with _ | ⟨c1, l1, x1, r1⟩
      · exact absurd rfl hnn
      cases c1
      · exact absurd rfl (fun h => hnr l1 x1 r1 h)
      · rfl]
    constructor
    · simp only [invh, bheight, Bool.and_eq_true, beq_iff_eq]
      exact ⟨⟨hji, h4⟩, by omega⟩
    · simp only [bheight]; omega
  | case8 t1 a t2 t3 hnn hnr1 hnr2 ih =>
    simp only [invh, bheight, Bool.and_eq_true, beq_iff_eq] at hl hb
    obtain ⟨⟨h1, h2⟩, h12⟩ := hl
    have ih2 := ih h2 hr (by omega)
    obtain ⟨hji, hjb⟩ := ih2
    rw [show (node .red t1 a t2).join t3 = node .red t1 a (t2.join t3) by
      rw [join.eq_def]
      rcases t3 with _ | ⟨c3, l3, x3, r3⟩
      · exact absurd rfl hnn
      cases c3
      · exact absurd rfl (fun h => hnr1 l3 x3 r3 h)
      · rfl]
    constructor
    · simp only [invh, bheight, Bool.and_eq_true, beq_iff_eq]
      exact ⟨⟨h1, hji⟩, by omega⟩
    · simp [bheight]

end RBN
end Jstreemap

namespace Jstreemap
namespace RBN
variable {α : Type}

theorem invc_join {l r : RBN α} (hl : invc l = true) (hr : invc r = true) :
    invc2 (join l r) = true ∧
    (isBlackN l = true → isBlackN r = true → invc (join l r) = true) := by
  induction l, r using join.induct with
  | case1 t =>
    rw [show (nil : RBN α).join t = t by rw [join.eq_def]; simp]
    exact ⟨invc2_of_invc hr, fun _ _ => hr⟩
  | case2 t hn =>
    rw [show t.join nil = t by rcases t with _ | ⟨c0, l0, x0, r0⟩ <;> simp [join.eq_def]]
    exact ⟨invc2_of_invc hl, fun _ _ => hl⟩
  | case3 t1 a t2 t3 c t4 u2 b u3 heq ih =>
    simp only [invc, Bool.and_eq_true] at hl hr
    obtain ⟨⟨⟨hb1, hb2⟩, hc1⟩, hc2⟩ := hl
    obtain ⟨⟨⟨hb3, hb4⟩, hc3⟩, hc4⟩ := hr
    have hj := (ih hc2 hc3).2 hb2 hb3
    rw [heq] at hj
    simp only [invc, Bool.and_eq_true] at hj
    obtain ⟨⟨⟨hbu2, hbu3⟩, hcu2⟩, hcu3⟩ := hj
    rw [show (node .red t1 a t2).join (node .red t3 c t4)
        = node .red (node .red t1 a u2) b (node .red u3 c t4) by rw [join, heq]]
    constructor
    · show invc (node .black (node .red t1 a u2) b (node .red u3 c t4)) = true
      simp only [invc, Bool.and_eq_true]
      exact ⟨⟨⟨⟨hb1, hbu2⟩, hc1⟩, hcu2⟩, ⟨⟨hbu3, hb4⟩, hcu3⟩, hc4⟩
    · simp [isBlackN_red]
  | case4 t1 a t2 t3 c t4 hne ih =>
    simp only [invc, Bool.and_eq_true] at hl hr
    obtain ⟨⟨⟨hb1, hb2⟩, hc1⟩, hc2⟩ := hl
    obtain ⟨⟨⟨hb3, hb4⟩, hc3⟩, hc4⟩ := hr
    have hbj : isBlackN (t2.join t3) = true :=
      isBlackN_of_not_red (fun u2 b u3 h => hne u2 b u3 h)
    have hcj : invc (t2.join t3) = true := by
      rw [invc_eq_invc2_of_black hbj]; exact (ih hc2 hc3).1
    rw [show (node .red t1 a t2).join (node .red t3 c t4)
        = node .red t1 a (node .red (t2.join t3) c t4) by
      rw [join]
      rcases hj : t2.join t3 with _ | ⟨cj, lj, xj, rj⟩
      · rfl
      cases cj
      · exact absurd hj (fun h => hne lj xj rj h)
      · rfl]
    constructor
    · show invc (node .black t1 a (node .red (t2.join t3) c t4)) = true
      simp only [invc, Bool.and_eq_true]
      exact ⟨hc1, ⟨⟨hbj, hb4⟩, hcj⟩, hc4⟩
    · simp [isBlackN_red]
  | case5 t1 a t2 t3 c t4 u2 b u3 heq ih =>
    simp only [invc, Bool.and_eq_true] at hl hr
    obtain ⟨hc1, hc2⟩ := hl
    obtain ⟨hc3, hc4⟩ := hr
    have hj := (ih hc2 hc3).1
    rw [heq] at hj
    have hj2 : invc u2 = true ∧ invc u3 = true := by
      have : invc (node .black u2 b u3) = true := hj
      simpa [invc, Bool.and_eq_true] using this
    rw [show (node .black t1 a t2).join (node .black t3 c t4)
        = node .red (node .black t1 a u2) b (node .black u3 c t4) by rw [join, heq]]
    constructor
    · show invc (node .black (node .black t1 a u2) b (node .black u3 c t4)) = true
      simp only [invc, Bool.and_eq_true]
      exact ⟨⟨hc1, hj2.1⟩, hj2.2, hc4⟩
    · intro _ _
      simp only [invc, Bool.and_eq_true]
      exact ⟨⟨⟨isBlackN_black _ _ _, isBlackN_black _ _ _⟩, ⟨hc1, hj2.1⟩⟩, hj2.2, hc4⟩
  | case6 t1 a t2 t3 c t4 hne ih =>
    simp only [invc, Bool.and_eq_true] at hl hr
    obtain ⟨hc1, hc2⟩ := hl
    obtain ⟨hc3, hc4⟩ := hr
    have hbj : isBlackN (t2.join t3) = true :=
      isBlackN_of_not_red (fun u2 b u3 h => hne u2 b u3 h)
    have hcj : invc (t2.join t3) = true := by
      rw [invc_eq_invc2_of_black hbj]; exact (ih hc2 hc3).1
    have hcB : invc (node .black (t2.join t3) c t4) = true := by
      simp only [invc, Bool.and_eq_true]
      exact ⟨hcj, hc4⟩
    rw [show (node .black t1 a t2).join (node .black t3 c t4)
        = baldL t1 a (node .black (t2.join t3) c t4) by
      rw [join]
      rcases hj : t2.join t3 with _ | ⟨cj, lj, xj, rj⟩
      · rfl
      cases cj
      · exact absurd hj (fun h => hne lj xj rj h)
      · rfl]
    exact ⟨invc2_baldL a (invc2_of_invc hc1) hcB,
      fun _ _ => invc_baldL a (invc2_of_invc hc1) hcB (isBlackN_black _ _ _)⟩
  | case7 t1 t2 a t3 hnn hnr ih =>
    simp only [invc, Bool.and_eq_true] at hr
    obtain ⟨⟨⟨hb2, hb3⟩, hc2⟩, hc3⟩ := hr
    have hbt1 : isBlackN t1 = true := isBlackN_of_not_red (fun u2 b u3 h => hnr u2 b u3 h)
    have hcj : invc (t1.join t2) = true := (ih hl hc2).2 hbt1 hb2
    rw [show t1.join (node .red t2 a t3) = node .red (t1.join t2) a t3 by
      rw [join.eq_def]
      rcases t1 with _ | ⟨c1, l1, x1, r1⟩
      · exact absurd rfl hnn
      cases c1
      · exact absurd rfl (fun h => hnr l1 x1 r1 h)
      · rfl]
    constructor
    · show invc (node .black (t1.join t2) a t3) = true
      simp only [invc, Bool.and_eq_true]
      exact ⟨hcj, hc3⟩
    · simp [isBlackN_red]
  | case8 t1 a t2 t3 hnn hnr1 hnr2 ih =>
    simp only [invc, Bool.and_eq_true] at hl
    obtain ⟨⟨⟨hb1, hb2⟩, hc1⟩, hc2⟩ := hl
    have hbt3 : isBlackN t3 = true := isBlackN_of_not_red (fun u2 b u3 h => hnr1 u2 b u3 h)
    have hcj : invc (t2.join t3) = true := (ih hc2 hr).2 hb2 hbt3
    rw [show (node .red t1 a t2).join t3 = node .red t1 a (t2.join t3) by
      rw [join.eq_def]
      rcases t3 with _ | ⟨c3, l3, x3, r3⟩
      · exact absurd rfl hnn
      cases c3
      · exact absurd rfl (fun h => hnr1 l3 x3 r3 h)
      · rfl]
    constructor
    · show invc (node .black t1 a (t2.join t3)) = true
      simp only [invc, Bool.and_eq_true]
      exact ⟨hc1, hcj⟩
    · simp [isBlackN_red]

end RBN
end Jstreemap
namespace Jstreemap
namespace RBN
variable {α : Type} (cmp : α → α → Ordering)

theorem bheight_pos_of_blackNode {l : RBN α} (h : isBlackNode l = true) :
    1 ≤ bheight l ∧ color l = Color.black := by
  rcases l with _ | ⟨cl, l1, y, r1⟩
  · simp [isBlackNode] at h
  cases cl
  · simp [isBlackNode] at h
  · exact ⟨by simp [bheight], rfl⟩

theorem del_inv {t : RBN α} {k : α} (hc : invc t = true) (hh : invh t = true) :
    invh (del cmp t k) = true ∧
    (color t = .red → bheight (del cmp t k) = bheight t ∧ invc (del cmp t k) = true) ∧
    (color t = .black →
      bheight (del cmp t k) = bheight t - 1 ∧ invc2 (del cmp t k) = true) := by
  induction t, k using del.induct cmp with
  | case1 k =>
    refine ⟨rfl, fun h => by simp [color] at h, fun _ => ⟨rfl, rfl⟩⟩
  | case2 c l x r k hcmp hbl ih =>
    rw [show del cmp (node c l x r) k = baldL (del cmp l k) x r by
      simp [del, hcmp, hbl]]
    obtain ⟨hlp, hlb⟩ := bheight_pos_of_blackNode hbl
    rw [invh] at hh
    simp only [Bool.and_eq_true, beq_iff_eq] at hh
    obtain ⟨⟨hhL, hhR⟩, hbE⟩ := hh
    cases c with
    | red =>
      rw [invc] at hc
      simp only [Bool.and_eq_true] at hc
      obtain ⟨⟨⟨hbL, hbR⟩, hcL⟩, hcR⟩ := hc
      obtain ⟨hdb, hdc2⟩ := (ih hcL hhL).2.2 hlb
      have hdh := (ih hcL hhL).1
      obtain ⟨hinvh, hbh⟩ := invh_baldL_invc x hdh hhR (by omega) hcR
      refine ⟨hinvh, fun _ => ⟨by simp only [bheight]; omega,
        invc_baldL x hdc2 hcR hbR⟩, fun h => by simp [color] at h⟩
    | black =>
      rw [invc] at hc
      simp only [Bool.and_eq_true] at hc
      obtain ⟨hcL, hcR⟩ := hc
      obtain ⟨hdb, hdc2⟩ := (ih hcL hhL).2.2 hlb
      have hdh := (ih hcL hhL).1
      obtain ⟨hinvh, hbh⟩ := invh_baldL_invc x hdh hhR (by omega) hcR
      refine ⟨hinvh, fun h => by simp [color] at h,
        fun _ => ⟨by simp only [bheight]; omega, invc2_baldL x hdc2 hcR⟩⟩
  | case3 c l x r k hcmp hbl ih =>
    rw [show del cmp (node c l x r) k = node .red (del cmp l k) x r by
      simp [del, hcmp, hbl]]
    rw [invh] at hh
    simp only [Bool.and_eq_true, beq_iff_eq] at hh
    obtain ⟨⟨hhL, hhR⟩, hbE⟩ := hh
    rcases l with _ | ⟨cl, l1, y, r1⟩
    · rw [show del cmp nil k = nil from rfl]
      have hb0 : bheight r = 0 := by simp [bheight] at hbE; omega
      cases c with
      | red =>
        rw [invc] at hc
        simp only [Bool.and_eq_true] at hc
        obtain ⟨⟨⟨hbL, hbR⟩, hcL⟩, hcR⟩ := hc
        refine ⟨?_, fun _ => ⟨by simp [bheight], ?_⟩, fun h => by simp [color] at h⟩
        · simp [invh, bheight, hhR, hb0]
        · simp only [invc, Bool.and_eq_true]
          refine ⟨⟨⟨by trivial, hbR⟩, by trivial⟩, hcR⟩
      | black =>
        rw [invc] at hc
        simp only [Bool.and_eq_true] at hc
        obtain ⟨hcL, hcR⟩ := hc
        refine ⟨?_, fun h => by simp [color] at h,
          fun _ => ⟨by simp [bheight], ?_⟩⟩
        · simp [invh, bheight, hhR, hb0]
        · show invc (node .black nil x r) = true
          simp only [invc, Bool.and_eq_true]
          exact ⟨by trivial, hcR⟩
    · cases cl with
      | black => simp [isBlackNode] at hbl
      | red =>
        cases c with
        | red =>
          rw [invc] at hc
          simp [isBlackN_red, Bool.and_eq_true] at hc
        | black =>
          rw [invc] at hc
          simp only [Bool.and_eq_true] at hc
          obtain ⟨hcL, hcR⟩ := hc
          obtain ⟨hdb, hdc⟩ := (ih hcL hhL).2.1 rfl
          have hdh := (ih hcL hhL).1
          simp only [bheight] at hbE hdb
          refine ⟨?_, fun h => by simp [color] at h,
            fun _ => ⟨by simp only [bheight]; omega, ?_⟩⟩
          · simp only [invh, Bool.and_eq_true, beq_iff_eq, bheight]
            exact ⟨⟨hdh, hhR⟩, by omega⟩
          · show invc (node .black (del cmp (node .red l1 y r1) k) x r) = true
            simp only [invc, Bool.and_eq_true]
            exact ⟨hdc, hcR⟩
  | case4 c l x r k hcmp hbr ih =>
    rw [show del cmp (node c l x r) k = baldR l x (del cmp r k) by
      simp [del, hcmp, hbr]]
    obtain ⟨hrp, hrb⟩ := bheight_pos_of_blackNode hbr
    rw [invh] at hh
    simp only [Bool.and_eq_true, beq_iff_eq] at hh
    obtain ⟨⟨hhL, hhR⟩, hbE⟩ := hh
    cases c with
    | red =>
      rw [invc] at hc
      simp only [Bool.and_eq_true] at hc
      obtain ⟨⟨⟨hbL, hbR⟩, hcL⟩, hcR⟩ := hc
      obtain ⟨hdb, hdc2⟩ := (ih hcR hhR).2.2 hrb
      have hdh := (ih hcR hhR).1
      obtain ⟨hinvh, hbh⟩ := invh_baldR_invc x hhL hdh (by omega) hcL
      refine ⟨hinvh, fun _ => ⟨by simp only [bheight]; omega,
        invc_baldR x hcL hdc2 hbL⟩, fun h => by simp [color] at h⟩
    | black =>
      rw [invc] at hc
      simp only [Bool.and_eq_true] at hc
      obtain ⟨hcL, hcR⟩ := hc
      obtain ⟨hdb, hdc2⟩ := (ih hcR hhR).2.2 hrb
      have hdh := (ih hcR hhR).1
      obtain ⟨hinvh, hbh⟩ := invh_baldR_invc x hhL hdh (by omega) hcL
      refine ⟨hinvh, fun h => by simp [color] at h,
        fun _ => ⟨by simp only [bheight]; omega, invc2_baldR x hcL hdc2⟩⟩
  | case5 c l x r k hcmp hbr ih =>
    rw [show del cmp (node c l x r) k = node .red l x (del cmp r k) by
      simp [del, hcmp, hbr]]
    rw [invh] at hh
    simp only [Bool.and_eq_true, beq_iff_eq] at hh
    obtain ⟨⟨hhL, hhR⟩, hbE⟩ := hh
    rcases r with _ | ⟨cr, l1, y, r1⟩
    · rw [show del cmp nil k = nil from rfl]
      have hb0 : bheight l = 0 := by simp [bheight] at hbE; omega
      cases c with
      | red =>
        rw [invc] at hc
        simp only [Bool.and_eq_true] at hc
        obtain ⟨⟨⟨hbL, hbR⟩, hcL⟩, hcR⟩ := hc
        refine ⟨?_, fun _ => ⟨by simp [bheight, hb0], ?_⟩, fun h => by simp [color] at h⟩
        · simp [invh, bheight, hhL, hb0]
        · simp only [invc, Bool.and_eq_true]
          refine ⟨⟨⟨hbL, by trivial⟩, hcL⟩, by trivial⟩
      | black =>
        rw [invc] at hc
        simp only [Bool.and_eq_true] at hc
        obtain ⟨hcL, hcR⟩ := hc
        refine ⟨?_, fun h => by simp [color] at h,
          fun _ => ⟨by simp [bheight, hb0], ?_⟩⟩
        · simp [invh, bheight, hhL, hb0]
        · show invc (node .black l x nil) = true
          simp only [invc, Bool.and_eq_true]
          exact ⟨hcL, by trivial⟩
    · cases cr with
      | black => simp [isBlackNode] at hbr
      | red =>
        cases c with
        | red =>
          rw [invc] at hc
          simp [isBlackN_red, Bool.and_eq_true] at hc
        | black =>
          rw [invc] at hc
          simp only [Bool.and_eq_true] at hc
          obtain ⟨hcL, hcR⟩ := hc
          obtain ⟨hdb, hdc⟩ := (ih hcR hhR).2.1 rfl
          have hdh := (ih hcR hhR).1
          simp only [bheight] at hbE hdb
          refine ⟨?_, fun h => by simp [color] at h,
            fun _ => ⟨by simp only [bheight]; omega, ?_⟩⟩
          · simp only [invh, Bool.and_eq_true, beq_iff_eq, bheight]
            exact ⟨⟨hhL, hdh⟩, by omega⟩
          · show invc (node .black l x (del cmp (node .red l1 y r1) k)) = true
            simp only [invc, Bool.and_eq_true]
            exact ⟨hcL, hdc⟩
  | case6 c l x r k hcmp =>
    rw [show del cmp (node c l x r) k = join l r by simp [del, hcmp]]
    rw [invh] at hh
    simp only [Bool.and_eq_true, beq_iff_eq] at hh
    obtain ⟨⟨hhL, hhR⟩, hbE⟩ := hh
    cases c with
    | red =>
      rw [invc] at hc
      simp only [Bool.and_eq_true] at hc
      obtain ⟨⟨⟨hbL, hbR⟩, hcL⟩, hcR⟩ := hc
      obtain ⟨hji, hjb⟩ := invh_join hhL hhR hbE
      refine ⟨hji, fun _ => ⟨by simp only [bheight]; omega,
        (invc_join hcL hcR).2 hbL hbR⟩, fun h => by simp [color] at h⟩
    | black =>
      rw [invc] at hc
      simp only [Bool.and_eq_true] at hc
      obtain ⟨hcL, hcR⟩ := hc
      obtain ⟨hji, hjb⟩ := invh_join hhL hhR hbE
      refine ⟨hji, fun h => by simp [color] at h,
        fun _ => ⟨by simp only [bheight]; omega, (invc_join hcL hcR).1⟩⟩

end RBN
end Jstreemap

namespace Jstreemap
namespace RBN
variable {α : Type} (cmp : α → α → Ordering)

/-- Modelled from the spec: the conjunction of the red-black invariants the
engine must maintain — no red-red edge, uniform black-height, Black root. -/
def isRB (t : RBN α) : Bool := invc t && invh t && isBlackN t

theorem isBlackN_paint_black (t : RBN α) : isBlackN (paint .black t) = true := by
  cases t <;> rfl

theorem invc_paint_black (t : RBN α) : invc (paint .black t) = invc2 t := rfl

theorem isRB_parts {t : RBN α} (h : isRB t = true) :
    invc t = true ∧ invh t = true ∧ isBlackN t = true := by
  simp only [isRB, Bool.and_eq_true] at h
  exact ⟨h.1.1, h.1.2, h.2⟩

theorem isRB_of_parts {t : RBN α} (h1 : invc t = true) (h2 : invh t = true)
    (h3 : isBlackN t = true) : isRB t = true := by
  simp [isRB, h1, h2, h3]

theorem isRB_insertUnique {t : RBN α} (k : α) (h : isRB t = true) :
    isRB (insertUnique cmp t k) = true := by
  obtain ⟨hc, hh, hb⟩ := isRB_parts h
  rw [insertUnique]
  refine isRB_of_parts ?_ ?_ (isBlackN_paint_black _)
  · rw [invc_paint_black]
    exact (invc_insU cmp hc).1
  · rw [invh_paint]
    exact (invh_insU cmp hh).1

theorem isRB_insertMulti {t : RBN α} (k : α) (h : isRB t = true) :
    isRB (insertMulti cmp t k) = true := by
  obtain ⟨hc, hh, hb⟩ := isRB_parts h
  rw [insertMulti]
  refine isRB_of_parts ?_ ?_ (isBlackN_paint_black _)
  · rw [invc_paint_black]
    exact (invc_insM cmp hc).1
  · rw [invh_paint]
    exact (invh_insM cmp hh).1

theorem isRB_insertOrReplace {t : RBN α} (k : α) (h : isRB t = true) :
    isRB (insertOrReplace cmp t k) = true := by
  obtain ⟨hc, hh, hb⟩ := isRB_parts h
  rw [insertOrReplace]
  refine isRB_of_parts ?_ ?_ (isBlackN_paint_black _)
  · rw [invc_paint_black]
    exact (invc_insR cmp hc).1
  · rw [invh_paint]
    exact (invh_insR cmp hh).1

theorem isRB_erase {t : RBN α} (k : α) (h : isRB t = true) :
    isRB (erase cmp t k) = true := by
  obtain ⟨hc, hh, hb⟩ := isRB_parts h
  rw [erase]
  obtain ⟨hdh, hred, hblack⟩ := del_inv cmp hc hh
  refine isRB_of_parts ?_ ?_ (isBlackN_paint_black _)
  · rw [invc_paint_black]
    rcases t with _ | ⟨c, l, x, r⟩
    · exact (hblack rfl).2
    cases c
    · simp [isBlackN] at hb
    · exact (hblack rfl).2
  · rw [invh_paint]
    exact hdh

end RBN

namespace Op
variable {α : Type} (cmp : α → α → Ordering)

theorem isRB_apply {t : RBN α} (op : Op α) (h : RBN.isRB t = true) :
    RBN.isRB (Op.apply cmp op t) = true := by
  cases op with
  | insU k => exact RBN.isRB_insertUnique cmp k h
  | insM k => exact RBN.isRB_insertMulti cmp k h
  | insR k => exact RBN.isRB_insertOrReplace cmp k h
  | erase k => exact RBN.isRB_erase cmp k h
  | clear => rfl

theorem isRB_foldl (ops : List (Op α)) :
    ∀ t : RBN α, RBN.isRB t = true →
      RBN.isRB (ops.foldl (fun t op => Op.apply cmp op t) t) = true := by
  induction ops with
  | nil => intro t ht; exact ht
  | cons op ops ih =>
    intro t ht
    exact ih _ (isRB_apply cmp op ht)

theorem isRB_run (ops : List (Op α)) : RBN.isRB (Op.run cmp ops) = true :=
  isRB_foldl cmp ops .nil rfl

end Op
end Jstreemap

namespace Jstreemap

/-- C1: every tree state reachable from the empty tree by the public mutating
operations `insertUnique`, `insertMulti`, `insertOrReplace`, `erase` and
`clear` satisfies the red-black invariants once the operation completes: the
root, if present, is Black; no Red node has a Red child; and every path from
a node to any of its descendant absent children passes through the same
number of Black nodes. -/
theorem c1_reachable_red_black_invariants {α : Type} (cmp : α → α → Ordering)
    (ops : List (Op α)) :
    RBN.isBlackN (Op.run cmp ops) = true ∧ RBN.invc (Op.run cmp ops) = true ∧
    RBN.invh (Op.run cmp ops) = true := by
  obtain ⟨h1, h2, h3⟩ := RBN.isRB_parts (Op.isRB_run cmp ops)
  exact ⟨h3, h1, h2⟩

end Jstreemap

namespace Jstreemap
namespace RBN
variable {α : Type} (cmp : α → α → Ordering)

/-- Strict in-order sortedness: the invariant of unique-key trees — every
earlier traversed key compares less than every later one. -/
def IsOrd (t : RBN α) : Prop :=
  List.Pairwise (fun a b => cmp a b = .lt) (toList t)

/-- Weak in-order sortedness: the invariant of multi-key trees — no earlier
traversed key compares greater than a later one. -/
def IsOrdW (t : RBN α) : Prop :=
  List.Pairwise (fun a b => cmp a b ≠ .gt) (toList t)

theorem isOrdW_of_isOrd [Batteries.TransCmp cmp] {t : RBN α} (h : IsOrd cmp t) :
    IsOrdW cmp t := by
  refine List.Pairwise.imp ?_ h
  intro a b hab
  simp [hab]

theorem mem_toList_insU {t : RBN α} {k y : α}
    (h : y ∈ toList (insU cmp t k)) : y ∈ toList t ∨ y = k := by
  induction t, k using insU.induct cmp with
  | case1 k => simp [insU, toList] at h; simp [h]
  | case2 l x r k hc ih =>
    rw [show insU cmp (node .black l x r) k = baliL (insU cmp l k) x r by
      simp [insU, hc]] at h
    rw [toList_baliL] at h
    simp only [toList, List.mem_append, List.mem_cons] at h ⊢
    rcases h with h | h | h
    · rcases ih h with h2 | h2
      · exact Or.inl (Or.inl h2)
      · exact Or.inr h2
    · exact Or.inl (Or.inr (Or.inl h))
    · exact Or.inl (Or.inr (Or.inr h))
  | case3 l x r k hc ih =>
    rw [show insU cmp (node .black l x r) k = baliR l x (insU cmp r k) by
      simp [insU, hc]] at h
    rw [toList_baliR] at h
    simp only [toList, List.mem_append, List.mem_cons] at h ⊢
    rcases h with h | h | h
    · exact Or.inl (Or.inl h)
    · exact Or.inl (Or.inr (Or.inl h))
    · rcases ih h with h2 | h2
      · exact Or.inl (Or.inr (Or.inr h2))
      · exact Or.inr h2
  | case4 l x r k hc =>
    rw [show insU cmp (node .black l x r) k = node .black l x r by
      simp [insU, hc]] at h
    exact Or.inl h
  | case5 l x r k hc ih =>
    rw [show insU cmp (node .red l x r) k = node .red (insU cmp l k) x r by
      simp [insU, hc]] at h
    simp only [toList, List.mem_append, List.mem_cons] at h ⊢
    rcases h with h | h | h
    · rcases ih h with h2 | h2
      · exact Or.inl (Or.inl h2)
      · exact Or.inr h2
    · exact Or.inl (Or.inr (Or.inl h))
    · exact Or.inl (Or.inr (Or.inr h))
  | case6 l x r k hc ih =>
    rw [show insU cmp (node .red l x r) k = node .red l x (insU cmp r k) by
      simp [insU, hc]] at h
    simp only [toList, List.mem_append, List.mem_cons] at h ⊢
    rcases h with h | h | h
    · exact Or.inl (Or.inl h)
    · exact Or.inl (Or.inr (Or.inl h))
    · rcases ih h with h2 | h2
      · exact Or.inl (Or.inr (Or.inr h2))
      · exact Or.inr h2
  | case7 l x r k hc =>
    rw [show insU cmp (node .red l x r) k = node .red l x r by
      simp [insU, hc]] at h
    exact Or.inl h

end RBN
end Jstreemap

namespace Jstreemap
namespace RBN
variable {α : Type} (cmp : α → α → Ordering)

theorem pairwise_insU [Batteries.TransCmp cmp] {t : RBN α} {k : α}
    (h : IsOrd cmp t) :
    IsOrd cmp (insU cmp t k) := by
  induction t, k using insU.induct cmp with
  | case1 k => simp [IsOrd, insU, toList]
  | case2 l x r k hc ih =>
    rw [IsOrd, show insU cmp (node .black l x r) k = baliL (insU cmp l k) x r by
      simp [insU, hc], toList_baliL]
    rw [IsOrd, toList] at h
    rw [List.pairwise_append] at h ⊢
    obtain ⟨hL, hxR, hcross⟩ := h
    refine ⟨ih hL, hxR, ?_⟩
    intro a ha b hb
    rcases mem_toList_insU cmp ha with ha2 | ha2
    · exact hcross a ha2 b hb
    · subst ha2
      rcases List.mem_cons.1 hb with hb2 | hb2
      · subst hb2; exact hc
      · exact Batteries.TransCmp.lt_trans hc ((List.pairwise_cons.1 hxR).1 b hb2)
  | case3 l x r k hc ih =>
    rw [IsOrd, show insU cmp (node .black l x r) k = baliR l x (insU cmp r k) by
      simp [insU, hc], toList_baliR]
    rw [IsOrd, toList] at h
    rw [List.pairwise_append] at h ⊢
    obtain ⟨hL, hxR, hcross⟩ := h
    obtain ⟨hxr, hR⟩ := List.pairwise_cons.1 hxR
    refine ⟨hL, ?_, ?_⟩
    · rw [List.pairwise_cons]
      refine ⟨?_, ih hR⟩
      intro b hb
      rcases mem_toList_insU cmp hb with hb2 | hb2
      · exact hxr b hb2
      · subst hb2
        exact Batteries.OrientedCmp.cmp_eq_gt.1 hc
    · intro a ha b hb
      rcases List.mem_cons.1 hb with hb2 | hb2
      · rw [hb2]; exact hcross a ha x (List.mem_cons_self x _)
      · rcases mem_toList_insU cmp hb2 with hb3 | hb3
        · exact hcross a ha b (List.mem_cons_of_mem x hb3)
        · subst hb3
          exact Batteries.TransCmp.lt_trans
            (hcross a ha x (List.mem_cons_self x _))
            (Batteries.OrientedCmp.cmp_eq_gt.1 hc)
  | case4 l x r k hc =>
    rw [show insU cmp (node .black l x r) k = node .black l x r by simp [insU, hc]]
    exact h
  | case5 l x r k hc ih =>
    rw [IsOrd, show insU cmp (node .red l x r) k = node .red (insU cmp l k) x r by
      simp [insU, hc], toList]
    rw [IsOrd, toList] at h
    rw [List.pairwise_append] at h ⊢
    obtain ⟨hL, hxR, hcross⟩ := h
    refine ⟨ih hL, hxR, ?_⟩
    intro a ha b hb
    rcases mem_toList_insU cmp ha with ha2 | ha2
    · exact hcross a ha2 b hb
    · subst ha2
      rcases List.mem_cons.1 hb with hb2 | hb2
      · subst hb2; exact hc
      · exact Batteries.TransCmp.lt_trans hc ((List.pairwise_cons.1 hxR).1 b hb2)
  | case6 l x r k hc ih =>
    rw [IsOrd, show insU cmp (node .red l x r) k = node .red l x (insU cmp r k) by
      simp [insU, hc], toList]
    rw [IsOrd, toList] at h
    rw [List.pairwise_append] at h ⊢
    obtain ⟨hL, hxR, hcross⟩ := h
    obtain ⟨hxr, hR⟩ := List.pairwise_cons.1 hxR
    refine ⟨hL, ?_, ?_⟩
    · rw [List.pairwise_cons]
      refine ⟨?_, ih hR⟩
      intro b hb
      rcases mem_toList_insU cmp hb with hb2 | hb2
      · exact hxr b hb2
      · subst hb2
        exact Batteries.OrientedCmp.cmp_eq_gt.1 hc
    · intro a ha b hb
      rcases List.mem_cons.1 hb with hb2 | hb2
      · rw [hb2]; exact hcross a ha x (List.mem_cons_self x _)
      · rcases mem_toList_insU cmp hb2 with hb3 | hb3
        · exact hcross a ha b (List.mem_cons_of_mem x hb3)
        · subst hb3
          exact Batteries.TransCmp.lt_trans
            (hcross a ha x (List.mem_cons_self x _))
            (Batteries.OrientedCmp.cmp_eq_gt.1 hc)
  | case7 l x r k hc =>
    rw [show insU cmp (node .red l x r) k = node .red l x r by simp [insU, hc]]
    exact h

end RBN
end Jstreemap

namespace Jstreemap
namespace RBN
variable {α : Type} (cmp : α → α → Ordering)

theorem mem_toList_insM {t : RBN α} {k y : α}
    (h : y ∈ toList (insM cmp t k)) : y ∈ toList t ∨ y = k := by
  induction t, k using insM.induct cmp with
  | case1 k => simp [insM, toList] at h; simp [h]
  | case2 l x r k hc ih =>
    rw [show insM cmp (node .black l x r) k = baliL (insM cmp l k) x r by
      simp [insM, hc], toList_baliL] at h
    simp only [toList, List.mem_append, List.mem_cons] at h ⊢
    rcases h with h | h | h
    · rcases ih h with h2 | h2
      · exact Or.inl (Or.inl h2)
      · exact Or.inr h2
    · exact Or.inl (Or.inr (Or.inl h))
    · exact Or.inl (Or.inr (Or.inr h))
  | case3 l x r k hc ih =>
    rw [show insM cmp (node .black l x r) k = baliR l x (insM cmp r k) by
      simp [insM, hc], toList_baliR] at h
    simp only [toList, List.mem_append, List.mem_cons] at h ⊢
    rcases h with h | h | h
    · exact Or.inl (Or.inl h)
    · exact Or.inl (Or.inr (Or.inl h))
    · rcases ih h with h2 | h2
      · exact Or.inl (Or.inr (Or.inr h2))
      · exact Or.inr h2
  | case4 l x r k hc ih =>
    rw [show insM cmp (node .black l x r) k = baliR l x (insM cmp r k) by
      simp [insM, hc], toList_baliR] at h
    simp only [toList, List.mem_append, List.mem_cons] at h ⊢
    rcases h with h | h | h
    · exact Or.inl (Or.inl h)
    · exact Or.inl (Or.inr (Or.inl h))
    · rcases ih h with h2 | h2
      · exact Or.inl (Or.inr (Or.inr h2))
      · exact Or.inr h2
  | case5 l x r k hc ih =>
    rw [show insM cmp (node .red l x r) k = node .red (insM cmp l k) x r by
      simp [insM, hc]] at h
    simp only [toList, List.mem_append, List.mem_cons] at h ⊢
    rcases h with h | h | h
    · rcases ih h with h2 | h2
      · exact Or.inl (Or.inl h2)
      · exact Or.inr h2
    · exact Or.inl (Or.inr (Or.inl h))
    · exact Or.inl (Or.inr (Or.inr h))
  | case6 l x r k hc ih =>
    rw [show insM cmp (node .red l x r) k = node .red l x (insM cmp r k) by
      simp [insM, hc]] at h
    simp only [toList, List.mem_append, List.mem_cons] at h ⊢
    rcases h with h | h | h
    · exact Or.inl (Or.inl h)
    · exact Or.inl (Or.inr (Or.inl h))
    · rcases ih h with h2 | h2
      · exact Or.inl (Or.inr (Or.inr h2))
      · exact Or.inr h2
  | case7 l x r k hc ih =>
    rw [show insM cmp (node .red l x r) k = node .red l x (insM cmp r k) by
      simp [insM, hc]] at h
    simp only [toList, List.mem_append, List.mem_cons] at h ⊢
    rcases h with h | h | h
    · exact Or.inl (Or.inl h)
    · exact Or.inl (Or.inr (Or.inl h))
    · rcases ih h with h2 | h2
      · exact Or.inl (Or.inr (Or.inr h2))
      · exact Or.inr h2

theorem mem_toList_insR {t : RBN α} {k y : α}
    (h : y ∈ toList (insR cmp t k)) : y ∈ toList t ∨ y = k := by
  induction t, k using insR.induct cmp with
  | case1 k => simp [insR, toList] at h; simp [h]
  | case2 l x r k hc ih =>
    rw [show insR cmp (node .black l x r) k = baliL (insR cmp l k) x r by
      simp [insR, hc], toList_baliL] at h
    simp only [toList, List.mem_append, List.mem_cons] at h ⊢
    rcases h with h | h | h
    · rcases ih h with h2 | h2
      · exact Or.inl (Or.inl h2)
      · exact Or.inr h2
    · exact Or.inl (Or.inr (Or.inl h))
    · exact Or.inl (Or.inr (Or.inr h))
  | case3 l x r k hc ih =>
    rw [show insR cmp (node .black l x r) k = baliR l x (insR cmp r k) by
      simp [insR, hc], toList_baliR] at h
    simp only [toList, List.mem_append, List.mem_cons] at h ⊢
    rcases h with h | h | h
    · exact Or.inl (Or.inl h)
    · exact Or.inl (Or.inr (Or.inl h))
    · rcases ih h with h2 | h2
      · exact Or.inl (Or.inr (Or.inr h2))
      · exact Or.inr h2
  | case4 l x r k hc =>
    rw [show insR cmp (node .black l x r) k = node .black l k r by
      simp [insR, hc]] at h
    simp only [toList, List.mem_append, List.mem_cons] at h ⊢
    rcases h with h | h | h
    · exact Or.inl (Or.inl h)
    · exact Or.inr h
    · exact Or.inl (Or.inr (Or.inr h))
  | case5 l x r k hc ih =>
    rw [show insR cmp (node .red l x r) k = node .red (insR cmp l k) x r by
      simp [insR, hc]] at h
    simp only [toList, List.mem_append, List.mem_cons] at h ⊢
    rcases h with h | h | h
    · rcases ih h with h2 | h2
      · exact Or.inl (Or.inl h2)
      · exact Or.inr h2
    · exact Or.inl (Or.inr (Or.inl h))
    · exact Or.inl (Or.inr (Or.inr h))
  | case6 l x r k hc ih =>
    rw [show insR cmp (node .red l x r) k = node .red l x (insR cmp r k) by
      simp [insR, hc]] at h
    simp only [toList, List.mem_append, List.mem_cons] at h ⊢
    rcases h with h | h | h
    · exact Or.inl (Or.inl h)
    · exact Or.inl (Or.inr (Or.inl h))
    · rcases ih h with h2 | h2
      · exact Or.inl (Or.inr (Or.inr h2))
      · exact Or.inr h2
  | case7 l x r k hc =>
    rw [show insR cmp (node .red l x r) k = node .red l k r by
      simp [insR, hc]] at h
    simp only [toList, List.mem_append, List.mem_cons] at h ⊢
    rcases h with h | h | h
    · exact Or.inl (Or.inl h)
    · exact Or.inr h
    · exact Or.inl (Or.inr (Or.inr h))

end RBN
end Jstreemap

namespace Jstreemap
namespace RBN
variable {α : Type} (cmp : α → α → Ordering)

theorem pairwise_insU_weak [Batteries.TransCmp cmp] {t : RBN α} {k : α}
    (h : IsOrdW cmp t) :
    IsOrdW cmp (insU cmp t k) := by
  induction t, k using insU.induct cmp with
  | case1 k => simp [IsOrdW, insU, toList]
  | case2 l x r k hc ih =>
    rw [IsOrdW, show insU cmp (node .black l x r) k = baliL (insU cmp l k) x r by
      simp [insU, hc], toList_baliL]
    rw [IsOrdW, toList] at h
    rw [List.pairwise_append] at h ⊢
    obtain ⟨hL, hxR, hcross⟩ := h
    refine ⟨ih hL, hxR, ?_⟩
    intro a ha b hb
    rcases mem_toList_insU cmp ha with ha2 | ha2
    · exact hcross a ha2 b hb
    · subst ha2
      rcases List.mem_cons.1 hb with hb2 | hb2
      · subst hb2; simp [hc]
      · have hxb := (List.pairwise_cons.1 hxR).1 b hb2
        have := Batteries.TransCmp.lt_le_trans hc hxb
        simp [this]
  | case3 l x r k hc ih =>
    rw [IsOrdW, show insU cmp (node .black l x r) k = baliR l x (insU cmp r k) by
      simp [insU, hc], toList_baliR]
    rw [IsOrdW, toList] at h
    rw [List.pairwise_append] at h ⊢
    obtain ⟨hL, hxR, hcross⟩ := h
    obtain ⟨hxr, hR⟩ := List.pairwise_cons.1 hxR
    have hxk : cmp x k = .lt := Batteries.OrientedCmp.cmp_eq_gt.1 hc
    refine ⟨hL, ?_, ?_⟩
    · rw [List.pairwise_cons]
      refine ⟨?_, ih hR⟩
      intro b hb
      rcases mem_toList_insU cmp hb with hb2 | hb2
      · exact hxr b hb2
      · subst hb2; simp [hxk]
    · intro a ha b hb
      rcases List.mem_cons.1 hb with hb2 | hb2
      · rw [hb2]; exact hcross a ha x (List.mem_cons_self x _)
      · rcases mem_toList_insU cmp hb2 with hb3 | hb3
        · exact hcross a ha b (List.mem_cons_of_mem x hb3)
        · subst hb3
          have hax := hcross a ha x (List.mem_cons_self x _)
          have := Batteries.TransCmp.le_lt_trans hax hxk
          simp [this]
  | case4 l x r k hc =>
    rw [show insU cmp (node .black l x r) k = node .black l x r by simp [insU, hc]]
    exact h
  | case5 l x r k hc ih =>
    rw [IsOrdW, show insU cmp (node .red l x r) k = node .red (insU cmp l k) x r by
      simp [insU, hc], toList]
    rw [IsOrdW, toList] at h
    rw [List.pairwise_append] at h ⊢
    obtain ⟨hL, hxR, hcross⟩ := h
    refine ⟨ih hL, hxR, ?_⟩
    intro a ha b hb
    rcases mem_toList_insU cmp ha with ha2 | ha2
    · exact hcross a ha2 b hb
    · subst ha2
      rcases List.mem_cons.1 hb with hb2 | hb2
      · subst hb2; simp [hc]
      · have hxb := (List.pairwise_cons.1 hxR).1 b hb2
        have := Batteries.TransCmp.lt_le_trans hc hxb
        simp [this]
  | case6 l x r k hc ih =>
    rw [IsOrdW, show insU cmp (node .red l x r) k = node .red l x (insU cmp r k) by
      simp [insU, hc], toList]
    rw [IsOrdW, toList] at h
    rw [List.pairwise_append] at h ⊢
    obtain ⟨hL, hxR, hcross⟩ := h
    obtain ⟨hxr, hR⟩ := List.pairwise_cons.1 hxR
    have hxk : cmp x k = .lt := Batteries.OrientedCmp.cmp_eq_gt.1 hc
    refine ⟨hL, ?_, ?_⟩
    · rw [List.pairwise_cons]
      refine ⟨?_, ih hR⟩
      intro b hb
      rcases mem_toList_insU cmp hb with hb2 | hb2
      · exact hxr b hb2
      · subst hb2; simp [hxk]
    · intro a ha b hb
      rcases List.mem_cons.1 hb with hb2 | hb2
      · rw [hb2]; exact hcross a ha x (List.mem_cons_self x _)
      · rcases mem_toList_insU cmp hb2 with hb3 | hb3
        · exact hcross a ha b (List.mem_cons_of_mem x hb3)
        · subst hb3
          have hax := hcross a ha x (List.mem_cons_self x _)
          have := Batteries.TransCmp.le_lt_trans hax hxk
          simp [this]
  | case7 l x r k hc =>
    rw [show insU cmp (node .red l x r) k = node .red l x r by simp [insU, hc]]
    exact h

end RBN
end Jstreemap

namespace Jstreemap
namespace RBN
variable {α : Type} (cmp : α → α → Ordering)

theorem pairwise_insM_weak [Batteries.TransCmp cmp] {t : RBN α} {k : α}
    (h : IsOrdW cmp t) :
    IsOrdW cmp (insM cmp t k) := by
  induction t, k using insM.induct cmp with
  | case1 k => simp [IsOrdW, insM, toList]
  | case2 l x r k hc ih =>
    rw [IsOrdW, show insM cmp (node .black l x r) k = baliL (insM cmp l k) x r by
      simp [insM, hc], toList_baliL]
    rw [IsOrdW, toList] at h
    rw [List.pairwise_append] at h ⊢
    obtain ⟨hL, hxR, hcross⟩ := h
    refine ⟨ih hL, hxR, ?_⟩
    intro a ha b hb
    rcases mem_toList_insM cmp ha with ha2 | ha2
    · exact hcross a ha2 b hb
    · subst ha2
      rcases List.mem_cons.1 hb with hb2 | hb2
      · subst hb2; simp [hc]
      · have hxb := (List.pairwise_cons.1 hxR).1 b hb2
        have := Batteries.TransCmp.lt_le_trans hc hxb
        simp [this]
  | case3 l x r k hc ih =>
    rw [IsOrdW, show insM cmp (node .black l x r) k = baliR l x (insM cmp r k) by
      simp [insM, hc], toList_baliR]
    rw [IsOrdW, toList] at h
    rw [List.pairwise_append] at h ⊢
    obtain ⟨hL, hxR, hcross⟩ := h
    obtain ⟨hxr, hR⟩ := List.pairwise_cons.1 hxR
    have hxk : cmp x k = .eq := Batteries.OrientedCmp.cmp_eq_eq_symm.1 hc
    refine ⟨hL, ?_, ?_⟩
    · rw [List.pairwise_cons]
      refine ⟨?_, ih hR⟩
      intro b hb
      rcases mem_toList_insM cmp hb with hb2 | hb2
      · exact hxr b hb2
      · subst hb2; simp [hxk]
    · intro a ha b hb
      rcases List.mem_cons.1 hb with hb2 | hb2
      · rw [hb2]; exact hcross a ha x (List.mem_cons_self x _)
      · rcases mem_toList_insM cmp hb2 with hb3 | hb3
        · exact hcross a ha b (List.mem_cons_of_mem x hb3)
        · subst hb3
          have hax := hcross a ha x (List.mem_cons_self x _)
          rw [Batteries.TransCmp.cmp_congr_right hc]
          exact hax
  | case4 l x r k hc ih =>
    rw [IsOrdW, show insM cmp (node .black l x r) k = baliR l x (insM cmp r k) by
      simp [insM, hc], toList_baliR]
    rw [IsOrdW, toList] at h
    rw [List.pairwise_append] at h ⊢
    obtain ⟨hL, hxR, hcross⟩ := h
    obtain ⟨hxr, hR⟩ := List.pairwise_cons.1 hxR
    have hxk : cmp x k = .lt := Batteries.OrientedCmp.cmp_eq_gt.1 hc
    refine ⟨hL, ?_, ?_⟩
    · rw [List.pairwise_cons]
      refine ⟨?_, ih hR⟩
      intro b hb
      rcases mem_toList_insM cmp hb with hb2 | hb2
      · exact hxr b hb2
      · subst hb2; simp [hxk]
    · intro a ha b hb
      rcases List.mem_cons.1 hb with hb2 | hb2
      · rw [hb2]; exact hcross a ha x (List.mem_cons_self x _)
      · rcases mem_toList_insM cmp hb2 with hb3 | hb3
        · exact hcross a ha b (List.mem_cons_of_mem x hb3)
        · subst hb3
          have hax := hcross a ha x (List.mem_cons_self x _)
          have := Batteries.TransCmp.le_lt_trans hax hxk
          simp [this]
  | case5 l x r k hc ih =>
    rw [IsOrdW, show insM cmp (node .red l x r) k = node .red (insM cmp l k) x r by
      simp [insM, hc], toList]
    rw [IsOrdW, toList] at h
    rw [List.pairwise_append] at h ⊢
    obtain ⟨hL, hxR, hcross⟩ := h
    refine ⟨ih hL, hxR, ?_⟩
    intro a ha b hb
    rcases mem_toList_insM cmp ha with ha2 | ha2
    · exact hcross a ha2 b hb
    · subst ha2
      rcases List.mem_cons.1 hb with hb2 | hb2
      · subst hb2; simp [hc]
      · have hxb := (List.pairwise_cons.1 hxR).1 b hb2
        have := Batteries.TransCmp.lt_le_trans hc hxb
        simp [this]
  | case6 l x r k hc ih =>
    rw [IsOrdW, show insM cmp (node .red l x r) k = node .red l x (insM cmp r k) by
      simp [insM, hc], toList]
    rw [IsOrdW, toList] at h
    rw [List.pairwise_append] at h ⊢
    obtain ⟨hL, hxR, hcross⟩ := h
    obtain ⟨hxr, hR⟩ := List.pairwise_cons.1 hxR
    have hxk : cmp x k = .eq := Batteries.OrientedCmp.cmp_eq_eq_symm.1 hc
    refine ⟨hL, ?_, ?_⟩
    · rw [List.pairwise_cons]
      refine ⟨?_, ih hR⟩
      intro b hb
      rcases mem_toList_insM cmp hb with hb2 | hb2
      · exact hxr b hb2
      · subst hb2; simp [hxk]
    · intro a ha b hb
      rcases List.mem_cons.1 hb with hb2 | hb2
      · rw [hb2]; exact hcross a ha x (List.mem_cons_self x _)
      · rcases mem_toList_insM cmp hb2 with hb3 | hb3
        · exact hcross a ha b (List.mem_cons_of_mem x hb3)
        · subst hb3
          have hax := hcross a ha x (List.mem_cons_self x _)
          rw [Batteries.TransCmp.cmp_congr_right hc]
          exact hax
  | case7 l x r k hc ih =>
    rw [IsOrdW, show insM cmp (node .red l x r) k = node .red l x (insM cmp r k) by
      simp [insM, hc], toList]
    rw [IsOrdW, toList] at h
    rw [List.pairwise_append] at h ⊢
    obtain ⟨hL, hxR, hcross⟩ := h
    obtain ⟨hxr, hR⟩ := List.pairwise_cons.1 hxR
    have hxk : cmp x k = .lt := Batteries.OrientedCmp.cmp_eq_gt.1 hc
    refine ⟨hL, ?_, ?_⟩
    · rw [List.pairwise_cons]
      refine ⟨?_, ih hR⟩
      intro b hb
      rcases mem_toList_insM cmp hb with hb2 | hb2
      · exact hxr b hb2
      · subst hb2; simp [hxk]
    · intro a ha b hb
      rcases List.mem_cons.1 hb with hb2 | hb2
      · rw [hb2]; exact hcross a ha x (List.mem_cons_self x _)
      · rcases mem_toList_insM cmp hb2 with hb3 | hb3
        · exact hcross a ha b (List.mem_cons_of_mem x hb3)
        · subst hb3
          have hax := hcross a ha x (List.mem_cons_self x _)
          have := Batteries.TransCmp.le_lt_trans hax hxk
          simp [this]

end RBN
end Jstreemap

namespace Jstreemap
namespace RBN
variable {α : Type} (cmp : α → α → Ordering)

theorem pairwise_insR [Batteries.TransCmp cmp] {t : RBN α} {k : α}
    (h : IsOrd cmp t) :
    IsOrd cmp (insR cmp t k) := by
  induction t, k using insR.induct cmp with
  | case1 k => simp [IsOrd, insR, toList]
  | case2 l x r k hc ih =>
    rw [IsOrd, show insR cmp (node .black l x r) k = baliL (insR cmp l k) x r by
      simp [insR, hc], toList_baliL]
    rw [IsOrd, toList] at h
    rw [List.pairwise_append] at h ⊢
    obtain ⟨hL, hxR, hcross⟩ := h
    refine ⟨ih hL, hxR, ?_⟩
    intro a ha b hb
    rcases mem_toList_insR cmp ha with ha2 | ha2
    · exact hcross a ha2 b hb
    · subst ha2
      rcases List.mem_cons.1 hb with hb2 | hb2
      · subst hb2; exact hc
      · exact Batteries.TransCmp.lt_trans hc ((List.pairwise_cons.1 hxR).1 b hb2)
  | case3 l x r k hc ih =>
    rw [IsOrd, show insR cmp (node .black l x r) k = baliR l x (insR cmp r k) by
      simp [insR, hc], toList_baliR]
    rw [IsOrd, toList] at h
    rw [List.pairwise_append] at h ⊢
    obtain ⟨hL, hxR, hcross⟩ := h
    obtain ⟨hxr, hR⟩ := List.pairwise_cons.1 hxR
    have hxk : cmp x k = .lt := Batteries.OrientedCmp.cmp_eq_gt.1 hc
    refine ⟨hL, ?_, ?_⟩
    · rw [List.pairwise_cons]
      refine ⟨?_, ih hR⟩
      intro b hb
      rcases mem_toList_insR cmp hb with hb2 | hb2
      · exact hxr b hb2
      · subst hb2; exact hxk
    · intro a ha b hb
      rcases List.mem_cons.1 hb with hb2 | hb2
      · rw [hb2]; exact hcross a ha x (List.mem_cons_self x _)
      · rcases mem_toList_insR cmp hb2 with hb3 | hb3
        · exact hcross a ha b (List.mem_cons_of_mem x hb3)
        · subst hb3
          exact Batteries.TransCmp.lt_trans
            (hcross a ha x (List.mem_cons_self x _)) hxk
  | case4 l x r k hc =>
    rw [IsOrd, show insR cmp (node .black l x r) k = node .black l k r by
      simp [insR, hc], toList]
    rw [IsOrd, toList] at h
    rw [List.pairwise_append] at h ⊢
    obtain ⟨hL, hxR, hcross⟩ := h
    obtain ⟨hxr, hR⟩ := List.pairwise_cons.1 hxR
    refine ⟨hL, ?_, ?_⟩
    · rw [List.pairwise_cons]
      refine ⟨?_, hR⟩
      intro b hb
      rw [Batteries.TransCmp.cmp_congr_left hc]
      exact hxr b hb
    · intro a ha b hb
      rcases List.mem_cons.1 hb with hb2 | hb2
      · rw [hb2, Batteries.TransCmp.cmp_congr_right hc]
        exact hcross a ha x (List.mem_cons_self x _)
      · exact hcross a ha b (List.mem_cons_of_mem x hb2)
  | case5 l x r k hc ih =>
    rw [IsOrd, show insR cmp (node .red l x r) k = node .red (insR cmp l k) x r by
      simp [insR, hc], toList]
    rw [IsOrd, toList] at h
    rw [List.pairwise_append] at h ⊢
    obtain ⟨hL, hxR, hcross⟩ := h
    refine ⟨ih hL, hxR, ?_⟩
    intro a ha b hb
    rcases mem_toList_insR cmp ha with ha2 | ha2
    · exact hcross a ha2 b hb
    · subst ha2
      rcases List.mem_cons.1 hb with hb2 | hb2
      · subst hb2; exact hc
      · exact Batteries.TransCmp.lt_trans hc ((List.pairwise_cons.1 hxR).1 b hb2)
  | case6 l x r k hc ih =>
    rw [IsOrd, show insR cmp (node .red l x r) k = node .red l x (insR cmp r k) by
      simp [insR, hc], toList]
    rw [IsOrd, toList] at h
    rw [List.pairwise_append] at h ⊢
    obtain ⟨hL, hxR, hcross⟩ := h
    obtain ⟨hxr, hR⟩ := List.pairwise_cons.1 hxR
    have hxk : cmp x k = .lt := Batteries.OrientedCmp.cmp_eq_gt.1 hc
    refine ⟨hL, ?_, ?_⟩
    · rw [List.pairwise_cons]
      refine ⟨?_, ih hR⟩
      intro b hb
      rcases mem_toList_insR cmp hb with hb2 | hb2
      · exact hxr b hb2
      · subst hb2; exact hxk
    · intro a ha b hb
      rcases List.mem_cons.1 hb with hb2 | hb2
      · rw [hb2]; exact hcross a ha x (List.mem_cons_self x _)
      · rcases mem_toList_insR cmp hb2 with hb3 | hb3
        · exact hcross a ha b (List.mem_cons_of_mem x hb3)
        · subst hb3
          exact Batteries.TransCmp.lt_trans
            (hcross a ha x (List.mem_cons_self x _)) hxk
  | case7 l x r k hc =>
    rw [IsOrd, show insR cmp (node .red l x r) k = node .red l k r by
      simp [insR, hc], toList]
    rw [IsOrd, toList] at h
    rw [List.pairwise_append] at h ⊢
    obtain ⟨hL, hxR, hcross⟩ := h
    obtain ⟨hxr, hR⟩ := List.pairwise_cons.1 hxR
    refine ⟨hL, ?_, ?_⟩
    · rw [List.pairwise_cons]
      refine ⟨?_, hR⟩
      intro b hb
      rw [Batteries.TransCmp.cmp_congr_left hc]
      exact hxr b hb
    · intro a ha b hb
      rcases List.mem_cons.1 hb with hb2 | hb2
      · rw [hb2, Batteries.TransCmp.cmp_congr_right hc]
        exact hcross a ha x (List.mem_cons_self x _)
      · exact hcross a ha b (List.mem_cons_of_mem x hb2)

theorem pairwise_insR_weak [Batteries.TransCmp cmp] {t : RBN α} {k : α}
    (h : IsOrdW cmp t) :
    IsOrdW cmp (insR cmp t k) := by
  induction t, k using insR.induct cmp with
  | case1 k => simp [IsOrdW, insR, toList]
  | case2 l x r k hc ih =>
    rw [IsOrdW, show insR cmp (node .black l x r) k = baliL (insR cmp l k) x r by
      simp [insR, hc], toList_baliL]
    rw [IsOrdW, toList] at h
    rw [List.pairwise_append] at h ⊢
    obtain ⟨hL, hxR, hcross⟩ := h
    refine ⟨ih hL, hxR, ?_⟩
    intro a ha b hb
    rcases mem_toList_insR cmp ha with ha2 | ha2
    · exact hcross a ha2 b hb
    · subst ha2
      rcases List.mem_cons.1 hb with hb2 | hb2
      · subst hb2; simp [hc]
      · have hxb := (List.pairwise_cons.1 hxR).1 b hb2
        have := Batteries.TransCmp.lt_le_trans hc hxb
        simp [this]
  | case3 l x r k hc ih =>
    rw [IsOrdW, show insR cmp (node .black l x r) k = baliR l x (insR cmp r k) by
      simp [insR, hc], toList_baliR]
    rw [IsOrdW, toList] at h
    rw [List.pairwise_append] at h ⊢
    obtain ⟨hL, hxR, hcross⟩ := h
    obtain ⟨hxr, hR⟩ := List.pairwise_cons.1 hxR
    have hxk : cmp x k = .lt := Batteries.OrientedCmp.cmp_eq_gt.1 hc
    refine ⟨hL, ?_, ?_⟩
    · rw [List.pairwise_cons]
      refine ⟨?_, ih hR⟩
      intro b hb
      rcases mem_toList_insR cmp hb with hb2 | hb2
      · exact hxr b hb2
      · subst hb2; simp [hxk]
    · intro a ha b hb
      rcases List.mem_cons.1 hb with hb2 | hb2
      · rw [hb2]; exact hcross a ha x (List.mem_cons_self x _)
      · rcases mem_toList_insR cmp hb2 with hb3 | hb3
        · exact hcross a ha b (List.mem_cons_of_mem x hb3)
        · subst hb3
          have hax := hcross a ha x (List.mem_cons_self x _)
          have := Batteries.TransCmp.le_lt_trans hax hxk
          simp [this]
  | case4 l x r k hc =>
    rw [IsOrdW, show insR cmp (node .black l x r) k = node .black l k r by
      simp [insR, hc], toList]
    rw [IsOrdW, toList] at h
    rw [List.pairwise_append] at h ⊢
    obtain ⟨hL, hxR, hcross⟩ := h
    obtain ⟨hxr, hR⟩ := List.pairwise_cons.1 hxR
    refine ⟨hL, ?_, ?_⟩
    · rw [List.pairwise_cons]
      refine ⟨?_, hR⟩
      intro b hb
      rw [Batteries.TransCmp.cmp_congr_left hc]
      exact hxr b hb
    · intro a ha b hb
      rcases List.mem_cons.1 hb with hb2 | hb2
      · rw [hb2, Batteries.TransCmp.cmp_congr_right hc]
        exact hcross a ha x (List.mem_cons_self x _)
      · exact hcross a ha b (List.mem_cons_of_mem x hb2)
  | case5 l x r k hc ih =>
    rw [IsOrdW, show insR cmp (node .red l x r) k = node .red (insR cmp l k) x r by
      simp [insR, hc], toList]
    rw [IsOrdW, toList] at h
    rw [List.pairwise_append] at h ⊢
    obtain ⟨hL, hxR, hcross⟩ := h
    refine ⟨ih hL, hxR, ?_⟩
    intro a ha b hb
    rcases mem_toList_insR cmp ha with ha2 | ha2
    · exact hcross a ha2 b hb
    · subst ha2
      rcases List.mem_cons.1 hb with hb2 | hb2
      · subst hb2; simp [hc]
      · have hxb := (List.pairwise_cons.1 hxR).1 b hb2
        have := Batteries.TransCmp.lt_le_trans hc hxb
        simp [this]
  | case6 l x r k hc ih =>
    rw [IsOrdW, show insR cmp (node .red l x r) k = node .red l x (insR cmp r k) by
      simp [insR, hc], toList]
    rw [IsOrdW, toList] at h
    rw [List.pairwise_append] at h ⊢
    obtain ⟨hL, hxR, hcross⟩ := h
    obtain ⟨hxr, hR⟩ := List.pairwise_cons.1 hxR
    have hxk : cmp x k = .lt := Batteries.OrientedCmp.cmp_eq_gt.1 hc
    refine ⟨hL, ?_, ?_⟩
    · rw [List.pairwise_cons]
      refine ⟨?_, ih hR⟩
      intro b hb
      rcases mem_toList_insR cmp hb with hb2 | hb2
      · exact hxr b hb2
      · subst hb2; simp [hxk]
    · intro a ha b hb
      rcases List.mem_cons.1 hb with hb2 | hb2
      · rw [hb2]; exact hcross a ha x (List.mem_cons_self x _)
      · rcases mem_toList_insR cmp hb2 with hb3 | hb3
        · exact hcross a ha b (List.mem_cons_of_mem x hb3)
        · subst hb3
          have hax := hcross a ha x (List.mem_cons_self x _)
          have := Batteries.TransCmp.le_lt_trans hax hxk
          simp [this]
  | case7 l x r k hc =>
    rw [IsOrdW, show insR cmp (node .red l x r) k = node .red l k r by
      simp [insR, hc], toList]
    rw [IsOrdW, toList] at h
    rw [List.pairwise_append] at h ⊢
    obtain ⟨hL, hxR, hcross⟩ := h
    obtain ⟨hxr, hR⟩ := List.pairwise_cons.1 hxR
    refine ⟨hL, ?_, ?_⟩
    · rw [List.pairwise_cons]
      refine ⟨?_, hR⟩
      intro b hb
      rw [Batteries.TransCmp.cmp_congr_left hc]
      exact hxr b hb
    · intro a ha b hb
      rcases List.mem_cons.1 hb with hb2 | hb2
      · rw [hb2, Batteries.TransCmp.cmp_congr_right hc]
        exact hcross a ha x (List.mem_cons_self x _)
      · exact hcross a ha b (List.mem_cons_of_mem x hb2)

end RBN
end Jstreemap

namespace Jstreemap
namespace RBN
variable {α : Type} (cmp : α → α → Ordering)

theorem toList_del (t : RBN α) (k : α) :
    (find? cmp t k = none ∧ toList (del cmp t k) = toList t) ∨
    (∃ y l1 l2, find? cmp t k = some y ∧ cmp k y = .eq ∧
      toList t = l1 ++ y :: l2 ∧ toList (del cmp t k) = l1 ++ l2) := by
  induction t, k using del.induct cmp with
  | case1 k => exact Or.inl ⟨rfl, rfl⟩
  | case2 c l x r k hcmp hbl ih =>
    rw [show del cmp (node c l x r) k = baldL (del cmp l k) x r by
      simp [del, hcmp, hbl]]
    rw [show find? cmp (node c l x r) k = find? cmp l k by simp [find?, hcmp]]
    rcases ih with ⟨hf, he⟩ | ⟨y, l1, l2, hf, heq, hsplit, hres⟩
    · refine Or.inl ⟨hf, ?_⟩
      rw [toList_baldL, he, toList]
    · refine Or.inr ⟨y, l1, l2 ++ x :: toList r, hf, heq, ?_, ?_⟩
      · rw [toList, hsplit]; simp
      · rw [toList_baldL, hres]; simp
  | case3 c l x r k hcmp hbl ih =>
    rw [show del cmp (node c l x r) k = node .red (del cmp l k) x r by
      simp [del, hcmp, hbl]]
    rw [show find? cmp (node c l x r) k = find? cmp l k by simp [find?, hcmp]]
    rcases ih with ⟨hf, he⟩ | ⟨y, l1, l2, hf, heq, hsplit, hres⟩
    · refine Or.inl ⟨hf, ?_⟩
      rw [toList, he, toList]
    · refine Or.inr ⟨y, l1, l2 ++ x :: toList r, hf, heq, ?_, ?_⟩
      · rw [toList, hsplit]; simp
      · rw [toList, hres]; simp
  | case4 c l x r k hcmp hbr ih =>
    rw [show del cmp (node c l x r) k = baldR l x (del cmp r k) by
      simp [del, hcmp, hbr]]
    rw [show find? cmp (node c l x r) k = find? cmp r k by simp [find?, hcmp]]
    rcases ih with ⟨hf, he⟩ | ⟨y, l1, l2, hf, heq, hsplit, hres⟩
    · refine Or.inl ⟨hf, ?_⟩
      rw [toList_baldR, he, toList]
    · refine Or.inr ⟨y, toList l ++ x :: l1, l2, hf, heq, ?_, ?_⟩
      · rw [toList, hsplit]; simp
      · rw [toList_baldR, hres]; simp
  | case5 c l x r k hcmp hbr ih =>
    rw [show del cmp (node c l x r) k = node .red l x (del cmp r k) by
      simp [del, hcmp, hbr]]
    rw [show find? cmp (node c l x r) k = find? cmp r k by simp [find?, hcmp]]
    rcases ih with ⟨hf, he⟩ | ⟨y, l1, l2, hf, heq, hsplit, hres⟩
    · refine Or.inl ⟨hf, ?_⟩
      rw [toList, he, toList]
    · refine Or.inr ⟨y, toList l ++ x :: l1, l2, hf, heq, ?_, ?_⟩
      · rw [toList, hsplit]; simp
      · rw [toList, hres]; simp
  | case6 c l x r k hcmp =>
    rw [show del cmp (node c l x r) k = join l r by simp [del, hcmp]]
    rw [show find? cmp (node c l x r) k = some x by simp [find?, hcmp]]
    exact Or.inr ⟨x, toList l, toList r, rfl, hcmp, by rw [toList], toList_join l r⟩

theorem find?_sound {t : RBN α} {k y : α} (hf : find? cmp t k = some y) :
    y ∈ toList t ∧ cmp k y = .eq := by
  rcases toList_del cmp t k with ⟨hn, _⟩ | ⟨z, l1, l2, hz, heq, hsplit, _⟩
  · rw [hf] at hn; cases hn
  · rw [hf] at hz
    cases hz
    exact ⟨by rw [hsplit]; simp, heq⟩

theorem find?_eq_none {t : RBN α} {k : α}
    (habs : ∀ y ∈ toList t, cmp k y ≠ .eq) : find? cmp t k = none := by
  cases hf : find? cmp t k with
  | none => rfl
  | some y =>
    obtain ⟨hm, he⟩ := find?_sound cmp hf
    exact absurd he (habs y hm)

theorem find?_isSome [Batteries.TransCmp cmp] {t : RBN α} {k y : α}
    (h : IsOrdW cmp t) (hy : y ∈ toList t) (he : cmp k y = .eq) :
    (find? cmp t k).isSome = true := by
  induction t with
  | nil => cases hy
  | node c l x r ihl ihr =>
    rw [IsOrdW, toList, List.pairwise_append] at h
    obtain ⟨hL, hxR, hcross⟩ := h
    obtain ⟨hxr, hR⟩ := List.pairwise_cons.1 hxR
    simp only [toList, List.mem_append, List.mem_cons] at hy
    cases hc : cmp k x with
    | eq => simp [find?, hc]
    | lt =>
      rw [show find? cmp (node c l x r) k = find? cmp l k by simp [find?, hc]]
      rcases hy with hy | hy | hy
      · exact ihl hL hy
      · subst hy
        rw [he] at hc; cases hc
      · exfalso
        have h1 : cmp y k = .eq := Batteries.OrientedCmp.cmp_eq_eq_symm.1 he
        have h2 : cmp y x = .lt := by
          rw [Batteries.TransCmp.cmp_congr_left h1]; exact hc
        have h3 : cmp x y ≠ .gt := hxr y hy
        exact h3 (Batteries.OrientedCmp.cmp_eq_gt.2 h2)
    | gt =>
      rw [show find? cmp (node c l x r) k = find? cmp r k by simp [find?, hc]]
      rcases hy with hy | hy | hy
      · exfalso
        have h1 : cmp y k = .eq := Batteries.OrientedCmp.cmp_eq_eq_symm.1 he
        have h2 : cmp y x = .gt := by
          rw [Batteries.TransCmp.cmp_congr_left h1]; exact hc
        have h3 : cmp y x ≠ .gt := hcross y hy x (List.mem_cons_self x _)
        exact h3 h2
      · subst hy
        rw [he] at hc; cases hc
      · exact ihr hR hy

theorem pairwise_toList_del {R : α → α → Prop} {t : RBN α} {k : α}
    (h : (toList t).Pairwise R) : (toList (del cmp t k)).Pairwise R := by
  rcases toList_del cmp t k with ⟨_, he⟩ | ⟨y, l1, l2, _, _, hsplit, hres⟩
  · rw [he]; exact h
  · rw [hres]
    rw [hsplit] at h
    refine List.Pairwise.sublist ?_ h
    exact List.Sublist.append_left ((List.Sublist.refl l2).cons y) l1

end RBN
end Jstreemap

namespace Jstreemap
namespace RBN
variable {α : Type} (cmp : α → α → Ordering)

theorem isOrd_paint {c : Color} {t : RBN α} (h : IsOrd cmp t) :
    IsOrd cmp (paint c t) := by
  rw [IsOrd, toList_paint]; exact h

theorem isOrdW_paint {c : Color} {t : RBN α} (h : IsOrdW cmp t) :
    IsOrdW cmp (paint c t) := by
  rw [IsOrdW, toList_paint]; exact h

theorem isOrd_insertUnique [Batteries.TransCmp cmp] {t : RBN α} (k : α)
    (h : IsOrd cmp t) : IsOrd cmp (insertUnique cmp t k) :=
  isOrd_paint cmp (pairwise_insU cmp h)

theorem isOrd_insertOrReplace [Batteries.TransCmp cmp] {t : RBN α} (k : α)
    (h : IsOrd cmp t) : IsOrd cmp (insertOrReplace cmp t k) :=
  isOrd_paint cmp (pairwise_insR cmp h)

theorem isOrd_erase {t : RBN α} (k : α)
    (h : IsOrd cmp t) : IsOrd cmp (erase cmp t k) := by
  rw [IsOrd, erase, toList_paint]
  exact pairwise_toList_del cmp h

theorem isOrdW_insertUnique [Batteries.TransCmp cmp] {t : RBN α} (k : α)
    (h : IsOrdW cmp t) : IsOrdW cmp (insertUnique cmp t k) :=
  isOrdW_paint cmp (pairwise_insU_weak cmp h)

theorem isOrdW_insertMulti [Batteries.TransCmp cmp] {t : RBN α} (k : α)
    (h : IsOrdW cmp t) : IsOrdW cmp (insertMulti cmp t k) :=
  isOrdW_paint cmp (pairwise_insM_weak cmp h)

theorem isOrdW_insertOrReplace [Batteries.TransCmp cmp] {t : RBN α} (k : α)
    (h : IsOrdW cmp t) : IsOrdW cmp (insertOrReplace cmp t k) :=
  isOrdW_paint cmp (pairwise_insR_weak cmp h)

theorem isOrdW_erase {t : RBN α} (k : α)
    (h : IsOrdW cmp t) : IsOrdW cmp (erase cmp t k) := by
  rw [IsOrdW, erase, toList_paint]
  exact pairwise_toList_del cmp h

end RBN

namespace Op
variable {α : Type} (cmp : α → α → Ordering)

theorem isOrdW_apply [Batteries.TransCmp cmp] {t : RBN α} (op : Op α)
    (h : RBN.IsOrdW cmp t) : RBN.IsOrdW cmp (Op.apply cmp op t) := by
  cases op with
  | insU k => exact RBN.isOrdW_insertUnique cmp k h
  | insM k => exact RBN.isOrdW_insertMulti cmp k h
  | insR k => exact RBN.isOrdW_insertOrReplace cmp k h
  | erase k => exact RBN.isOrdW_erase cmp k h
  | clear => simp [Op.apply, RBN.IsOrdW, RBN.toList]

theorem isOrdW_foldl [Batteries.TransCmp cmp] (ops : List (Op α)) :
    ∀ t : RBN α, RBN.IsOrdW cmp t →
      RBN.IsOrdW cmp (ops.foldl (fun t op => Op.apply cmp op t) t) := by
  induction ops with
  | nil => intro t ht; exact ht
  | cons op ops ih => intro t ht; exact ih _ (isOrdW_apply cmp op ht)

theorem isOrdW_run [Batteries.TransCmp cmp] (ops : List (Op α)) :
    RBN.IsOrdW cmp (Op.run cmp ops) :=
  isOrdW_foldl cmp ops .nil (by simp [RBN.IsOrdW, RBN.toList])

theorem isOrd_foldl_unique [Batteries.TransCmp cmp] (ops : List (Op α))
    (hu : uniquePolicy ops = true) :
    ∀ t : RBN α, RBN.IsOrd cmp t →
      RBN.IsOrd cmp (ops.foldl (fun t op => Op.apply cmp op t) t) := by
  induction ops with
  | nil => intro t ht; exact ht
  | cons op ops ih =>
    intro t ht
    cases op with
    | insU k => exact ih (by simpa [uniquePolicy] using hu) _ (RBN.isOrd_insertUnique cmp k ht)
    | insM k => simp [uniquePolicy] at hu
    | insR k => exact ih (by simpa [uniquePolicy] using hu) _ (RBN.isOrd_insertOrReplace cmp k ht)
    | erase k => exact ih (by simpa [uniquePolicy] using hu) _ (RBN.isOrd_erase cmp k ht)
    | clear => exact ih (by simpa [uniquePolicy] using hu) _ (by simp [Op.apply, RBN.IsOrd, RBN.toList])

theorem isOrd_run_unique [Batteries.TransCmp cmp] (ops : List (Op α))
    (hu : uniquePolicy ops = true) : RBN.IsOrd cmp (Op.run cmp ops) :=
  isOrd_foldl_unique cmp ops hu .nil (by simp [RBN.IsOrd, RBN.toList])

end Op

/-- The three-way integer comparator used in concrete examples, following the
comparator contract documented on `compareFunc`: negative outcome when the
left value is less, zero when equal, positive when greater. -/
def intCmp (a b : Int) : Ordering :=
  if a < b then .lt else if a = b then .eq else .gt

instance : Batteries.OrientedCmp intCmp where
  symm a b := by
    unfold intCmp
    rcases lt_trichotomy a b with h | h | h
    · rw [if_pos h, if_neg (by omega), if_neg (by omega)]; rfl
    · rw [if_neg (by omega), if_pos h, if_neg (by omega), if_pos h.symm]; rfl
    · rw [if_neg (by omega), if_neg (by omega), if_pos h]; rfl

instance : Batteries.TransCmp intCmp where
  le_trans h1 h2 := by
    unfold intCmp at h1 h2 ⊢
    split_ifs at h1 h2 ⊢ <;>
      first
        | decide
        | (exfalso; omega)
        | exact absurd rfl h1
        | exact absurd rfl h2

end Jstreemap

namespace Jstreemap

/-- C2: for every sequence of insert and erase operations applied to an
initially empty tree, the full in-order traversal yields the keys in
non-decreasing order under the comparator, and for unique-key-policy
sequences no two traversed keys compare equal; in particular, inserting
5, 1, 3, 2, 4 into an empty unique tree and traversing forward yields
1, 2, 3, 4, 5. -/
theorem c2_inorder_sorted :
    (∀ (α : Type) (cmp : α → α → Ordering), Batteries.TransCmp cmp →
      ∀ ops : List (Op α),
        List.Chain' (fun a b => cmp a b ≠ .gt) (RBN.toList (Op.run cmp ops)) ∧
        (Op.uniquePolicy ops = true →
          List.Pairwise (fun a b => cmp a b ≠ .eq) (RBN.toList (Op.run cmp ops)))) ∧
    RBN.toList (Op.run intCmp
      [Op.insU 5, Op.insU 1, Op.insU 3, Op.insU 2, Op.insU 4]) = [1, 2, 3, 4, 5] := by
  constructor
  · intro α cmp hct ops
    constructor
    · exact List.Pairwise.chain' (Op.isOrdW_run cmp ops)
    · intro hu
      refine List.Pairwise.imp ?_ (Op.isOrd_run_unique cmp ops hu)
      intro a b hab
      simp [hab]
  · rfl

/-- Closed instance of C2 at the integer comparator, discharging the
comparator-lawfulness hypothesis. -/
theorem c2_inorder_sorted_witness :
    List.Chain' (fun a b => intCmp a b ≠ .gt)
      (RBN.toList (Op.run intCmp [Op.insU 2, Op.insM 2, Op.insR 7, Op.erase 2])) ∧
    (Op.uniquePolicy [Op.insU (3 : Int), Op.erase 3] = true →
      List.Pairwise (fun a b => intCmp a b ≠ .eq)
        (RBN.toList (Op.run intCmp [Op.insU (3 : Int), Op.erase 3]))) :=
  ⟨(c2_inorder_sorted.1 Int intCmp inferInstance
      [Op.insU 2, Op.insM 2, Op.insR 7, Op.erase 2]).1,
   (c2_inorder_sorted.1 Int intCmp inferInstance [Op.insU 3, Op.erase 3]).2⟩

end Jstreemap

namespace Jstreemap

/-- Modelled from the spec: the result value of the insert operations —
whether a node was added, and a cursor to the added or already-existing
node, modelled as that node's in-order index. -/
structure InsertionResult where
  wasInserted : Bool
  iterator : Nat
deriving Repr, DecidableEq

namespace RBN
variable {α : Type} (cmp : α → α → Ordering)

/-- Modelled from the spec: the in-order index of the node `find` locates by
comparator-guided descent (`none` is the end cursor). -/
def findIdx? : RBN α → α → Option Nat
  | .nil, _ => none
  | .node _ l x r, k =>
    match cmp k x with
    | .lt => findIdx? l k
    | .gt => (findIdx? r k).map (fun i => size l + 1 + i)
    | .eq => some (size l)

/-- Modelled from the spec: `insertUnique` together with its result value —
if a node with an equal key exists the call is a no-op reporting the
existing node, otherwise it links the new node and reports its position. -/
def insertUniqueR (t : RBN α) (k : α) : InsertionResult × RBN α :=
  match findIdx? cmp t k with
  | some i => (⟨false, i⟩, t)
  | none =>
    (⟨true, (findIdx? cmp (insertUnique cmp t k) k).getD 0⟩, insertUnique cmp t k)

theorem findIdx?_isSome (t : RBN α) (k : α) :
    (findIdx? cmp t k).isSome = (find? cmp t k).isSome := by
  induction t with
  | nil => rfl
  | node c l x r ihl ihr =>
    cases hc : cmp k x with
    | lt => simp [findIdx?, find?, hc, ihl]
    | gt => simp [findIdx?, find?, hc, ihr]
    | eq => simp [findIdx?, find?, hc]

theorem findIdx?_sound {t : RBN α} {k : α} {i : Nat}
    (h : findIdx? cmp t k = some i) :
    ∃ y, (toList t).get? i = some y ∧ cmp k y = .eq := by
  induction t generalizing i with
  | nil => cases h
  | node c l x r ihl ihr =>
    rw [findIdx?] at h
    cases hc : cmp k x with
    | lt =>
      rw [hc] at h
      obtain ⟨y, hy, he⟩ := ihl h
      refine ⟨y, ?_, he⟩
      have hlt : i < (toList l).length := by
        by_contra hcon
        rw [List.get?_eq_none.2 (by omega)] at hy
        cases hy
      rw [toList, List.get?_append hlt]
      exact hy
    | eq =>
      rw [hc] at h
      cases h
      refine ⟨x, ?_, hc⟩
      rw [toList, List.get?_append_right (by rw [length_toList])]
      rw [length_toList]
      simp
    | gt =>
      rw [hc] at h
      rcases hi : findIdx? cmp r k with _ | i2
      · rw [hi] at h; cases h
      rw [hi] at h
      obtain ⟨y, hy, he⟩ := ihr hi
      have h2 : i = size l + 1 + i2 := by simpa using h.symm
      subst h2
      refine ⟨y, ?_, he⟩
      rw [toList, List.get?_append_right (by rw [length_toList]; omega), length_toList,
        show size l + 1 + i2 - size l = i2 + 1 by omega]
      simpa using hy

theorem toList_insU_notfound {t : RBN α} {k : α} (h : find? cmp t k = none) :
    ∃ l1 l2, toList t = l1 ++ l2 ∧ toList (insU cmp t k) = l1 ++ k :: l2 := by
  induction t, k using insU.induct cmp with
  | case1 k => exact ⟨[], [], rfl, rfl⟩
  | case2 l x r k hc ih =>
    rw [show find? cmp (node .black l x r) k = find? cmp l k by simp [find?, hc]] at h
    obtain ⟨l1, l2, hs, hr⟩ := ih h
    rw [show insU cmp (node .black l x r) k = baliL (insU cmp l k) x r by
      simp [insU, hc]]
    refine ⟨l1, l2 ++ x :: toList r, ?_, ?_⟩
    · rw [toList, hs]; simp
    · rw [toList_baliL, hr]; simp
  | case3 l x r k hc ih =>
    rw [show find? cmp (node .black l x r) k = find? cmp r k by simp [find?, hc]] at h
    obtain ⟨l1, l2, hs, hr⟩ := ih h
    rw [show insU cmp (node .black l x r) k = baliR l x (insU cmp r k) by
      simp [insU, hc]]
    refine ⟨toList l ++ x :: l1, l2, ?_, ?_⟩
    · rw [toList, hs]; simp
    · rw [toList_baliR, hr]; simp
  | case4 l x r k hc =>
    rw [show find? cmp (node .black l x r) k = some x by simp [find?, hc]] at h
    cases h
  | case5 l x r k hc ih =>
    rw [show find? cmp (node .red l x r) k = find? cmp l k by simp [find?, hc]] at h
    obtain ⟨l1, l2, hs, hr⟩ := ih h
    rw [show insU cmp (node .red l x r) k = node .red (insU cmp l k) x r by
      simp [insU, hc]]
    refine ⟨l1, l2 ++ x :: toList r, ?_, ?_⟩
    · rw [toList, hs]; simp
    · rw [toList, hr]; simp
  | case6 l x r k hc ih =>
    rw [show find? cmp (node .red l x r) k = find? cmp r k by simp [find?, hc]] at h
    obtain ⟨l1, l2, hs, hr⟩ := ih h
    rw [show insU cmp (node .red l x r) k = node .red l x (insU cmp r k) by
      simp [insU, hc]]
    refine ⟨toList l ++ x :: l1, l2, ?_, ?_⟩
    · rw [toList, hs]; simp
    · rw [toList, hr]; simp
  | case7 l x r k hc =>
    rw [show find? cmp (node .red l x r) k = some x by simp [find?, hc]] at h
    cases h

theorem size_insertUnique_notfound {t : RBN α} {k : α}
    (h : find? cmp t k = none) :
    size (insertUnique cmp t k) = size t + 1 := by
  obtain ⟨l1, l2, hs, hr⟩ := toList_insU_notfound cmp h
  rw [← length_toList, ← length_toList, insertUnique, toList_paint, hr, hs]
  simp; omega

theorem mem_toList_insertUnique_self {t : RBN α} {k : α}
    (h : find? cmp t k = none) :
    k ∈ toList (insertUnique cmp t k) := by
  obtain ⟨l1, l2, hs, hr⟩ := toList_insU_notfound cmp h
  rw [insertUnique, toList_paint, hr]
  simp

end RBN
end Jstreemap

namespace Jstreemap
namespace RBN
variable {α : Type} (cmp : α → α → Ordering)

theorem findIdx?_none_of_find?_none {t : RBN α} {k : α}
    (h : find? cmp t k = none) : findIdx? cmp t k = none := by
  cases hx : findIdx? cmp t k with
  | none => rfl
  | some i =>
    have h1 := findIdx?_isSome cmp t k
    rw [hx, h] at h1
    cases h1

theorem findIdx?_some_of_find?_isSome {t : RBN α} {k : α}
    (h : (find? cmp t k).isSome = true) : ∃ i, findIdx? cmp t k = some i := by
  have h1 := findIdx?_isSome cmp t k
  rw [h] at h1
  cases hx : findIdx? cmp t k with
  | some i => exact ⟨i, rfl⟩
  | none => rw [hx] at h1; cases h1

end RBN

/-- Counterexample to C3 as stated: the container already holding key 1 is a
well-formed unique-policy container, yet calling insertUnique(1) twice in
succession leaves the size at 1 — an increase of 0, not 1. -/
theorem c3_counterexample :
    RBN.IsOrd intCmp (Op.run intCmp [Op.insU 1]) ∧
    RBN.isRB (Op.run intCmp [Op.insU 1]) = true ∧
    RBN.size (Op.run intCmp [Op.insU 1]) = 1 ∧
    RBN.size ((RBN.insertUniqueR intCmp
      ((RBN.insertUniqueR intCmp (Op.run intCmp [Op.insU 1]) 1).2) 1).2) = 1 := by
  refine ⟨?_, rfl, rfl, rfl⟩
  rw [RBN.IsOrd]
  decide

/-- C3 (amended): for every unique-policy container and every key k not
already present in it, calling insertUnique(k) twice in succession
increases size by exactly 1 in total; the second call is a no-op on the
tree contents, returns wasInserted false, and returns a cursor to the
already-existing node with the equal key; the model is a total function, so no exception path exists. -/
theorem c3_insert_unique_twice {α : Type} (cmp : α → α → Ordering)
    [Batteries.TransCmp cmp] (t : RBN α) (k : α)
    (ho : RBN.IsOrd cmp t)
    (habs : ∀ y ∈ RBN.toList t, cmp k y ≠ .eq) :
    (RBN.insertUniqueR cmp t k).1.wasInserted = true ∧
    RBN.size (RBN.insertUniqueR cmp t k).2 = RBN.size t + 1 ∧
    (RBN.insertUniqueR cmp (RBN.insertUniqueR cmp t k).2 k).2
      = (RBN.insertUniqueR cmp t k).2 ∧
    (RBN.insertUniqueR cmp (RBN.insertUniqueR cmp t k).2 k).1.wasInserted = false ∧
    (∃ y, (RBN.toList (RBN.insertUniqueR cmp t k).2).get?
        (RBN.insertUniqueR cmp (RBN.insertUniqueR cmp t k).2 k).1.iterator = some y ∧
      cmp k y = .eq) := by
  have hf : RBN.find? cmp t k = none := RBN.find?_eq_none cmp habs
  have hfi : RBN.findIdx? cmp t k = none := RBN.findIdx?_none_of_find?_none cmp hf
  rw [RBN.insertUniqueR, hfi]
  have hmem : k ∈ RBN.toList (RBN.insertUnique cmp t k) :=
    RBN.mem_toList_insertUnique_self cmp hf
  have hw : RBN.IsOrdW cmp (RBN.insertUnique cmp t k) :=
    RBN.isOrdW_insertUnique cmp k (RBN.isOrdW_of_isOrd cmp ho)
  have hsome : (RBN.find? cmp (RBN.insertUnique cmp t k) k).isSome = true :=
    RBN.find?_isSome cmp hw hmem Batteries.OrientedCmp.cmp_refl
  obtain ⟨i, hi⟩ := RBN.findIdx?_some_of_find?_isSome cmp hsome
  rw [RBN.insertUniqueR, hi]
  obtain ⟨y, hy, he⟩ := RBN.findIdx?_sound cmp hi
  exact ⟨rfl, RBN.size_insertUnique_notfound cmp hf, rfl, rfl, y, hy, he⟩

/-- Closed instance of the amended C3 at the integer comparator, starting
from the container holding only 5 and inserting key 3 twice. -/
theorem c3_insert_unique_twice_witness :
    (RBN.insertUniqueR intCmp (Op.run intCmp [Op.insU 5]) 3).1.wasInserted = true ∧
    RBN.size (RBN.insertUniqueR intCmp (Op.run intCmp [Op.insU 5]) 3).2
      = RBN.size (Op.run intCmp [Op.insU 5]) + 1 ∧
    (RBN.insertUniqueR intCmp
        (RBN.insertUniqueR intCmp (Op.run intCmp [Op.insU 5]) 3).2 3).2
      = (RBN.insertUniqueR intCmp (Op.run intCmp [Op.insU 5]) 3).2 ∧
    (RBN.insertUniqueR intCmp
        (RBN.insertUniqueR intCmp (Op.run intCmp [Op.insU 5]) 3).2 3).1.wasInserted
      = false ∧
    (∃ y, (RBN.toList (RBN.insertUniqueR intCmp (Op.run intCmp [Op.insU 5]) 3).2).get?
        (RBN.insertUniqueR intCmp
          (RBN.insertUniqueR intCmp (Op.run intCmp [Op.insU 5]) 3).2 3).1.iterator
        = some y ∧ intCmp 3 y = .eq) :=
  c3_insert_unique_twice intCmp (Op.run intCmp [Op.insU 5]) 3
    (by rw [RBN.IsOrd]; decide) (by decide)

end Jstreemap

namespace Jstreemap

/-- C5: for every tree containing a node with key k, erasing the node that
find(k) locates removes exactly one node whose key compares equal to k and
decreases size by exactly 1; for unique policies a subsequent find(k)
returns the end cursor. -/
theorem c5_erase_find {α : Type} (cmp : α → α → Ordering) [Batteries.TransCmp cmp]
    (t : RBN α) (k : α) (hw : RBN.IsOrdW cmp t)
    (hmem : ∃ y ∈ RBN.toList t, cmp k y = .eq) :
    (∃ y l1 l2, cmp k y = .eq ∧ RBN.toList t = l1 ++ y :: l2 ∧
      RBN.toList (RBN.erase cmp t k) = l1 ++ l2) ∧
    RBN.size (RBN.erase cmp t k) + 1 = RBN.size t ∧
    (RBN.IsOrd cmp t → RBN.find? cmp (RBN.erase cmp t k) k = none) := by
  obtain ⟨y0, hy0, he0⟩ := hmem
  have hsome : (RBN.find? cmp t k).isSome = true := RBN.find?_isSome cmp hw hy0 he0
  rcases RBN.toList_del cmp t k with ⟨hn, _⟩ | ⟨y, l1, l2, hf, heq, hsplit, hres⟩
  · rw [hn] at hsome; cases hsome
  have herase : RBN.toList (RBN.erase cmp t k) = l1 ++ l2 := by
    rw [RBN.erase, RBN.toList_paint, hres]
  refine ⟨⟨y, l1, l2, heq, hsplit, herase⟩, ?_, ?_⟩
  · rw [← RBN.length_toList, ← RBN.length_toList, herase, hsplit]
    simp; omega
  · intro ho
    refine RBN.find?_eq_none cmp ?_
    intro z hz hzeq
    rw [herase] at hz
    rw [RBN.IsOrd, hsplit, List.pairwise_append] at ho
    obtain ⟨h1, h2, hcross⟩ := ho
    obtain ⟨hyl2, _⟩ := List.pairwise_cons.1 h2
    have hzk : cmp z k = .eq := Batteries.OrientedCmp.cmp_eq_eq_symm.1 hzeq
    rcases List.mem_append.1 hz with hz1 | hz2
    · have hlt : cmp z y = .lt := hcross z hz1 y (List.mem_cons_self y _)
      rw [Batteries.TransCmp.cmp_congr_left hzk, heq] at hlt
      cases hlt
    · have hlt : cmp y z = .lt := hyl2 z hz2
      have hyk : cmp y k = .eq := Batteries.OrientedCmp.cmp_eq_eq_symm.1 heq
      rw [Batteries.TransCmp.cmp_congr_left hyk, hzeq] at hlt
      cases hlt

/-- Closed instance of C5 at the integer comparator: erasing 2 from the
container holding 1 and 2. -/
theorem c5_erase_find_witness :
    (∃ y l1 l2, intCmp 2 y = .eq ∧
      RBN.toList (Op.run intCmp [Op.insU 1, Op.insU 2]) = l1 ++ y :: l2 ∧
      RBN.toList (RBN.erase intCmp (Op.run intCmp [Op.insU 1, Op.insU 2]) 2)
        = l1 ++ l2) ∧
    RBN.size (RBN.erase intCmp (Op.run intCmp [Op.insU 1, Op.insU 2]) 2) + 1
      = RBN.size (Op.run intCmp [Op.insU 1, Op.insU 2]) ∧
    (RBN.IsOrd intCmp (Op.run intCmp [Op.insU 1, Op.insU 2]) →
      RBN.find? intCmp (RBN.erase intCmp (Op.run intCmp [Op.insU 1, Op.insU 2]) 2) 2
        = none) :=
  c5_erase_find intCmp (Op.run intCmp [Op.insU 1, Op.insU 2]) 2
    (by rw [RBN.IsOrdW]; decide) ⟨2, by decide, by decide⟩

end Jstreemap

namespace Jstreemap
namespace RBN
variable {α : Type} (cmp : α → α → Ordering)

theorem toList_insU_found {t : RBN α} {k y : α}
    (h : find? cmp t k = some y) : toList (insU cmp t k) = toList t := by
  induction t, k using insU.induct cmp with
  | case1 k => cases h
  | case2 l x r k hc ih =>
    rw [show find? cmp (node .black l x r) k = find? cmp l k by simp [find?, hc]] at h
    rw [show insU cmp (node .black l x r) k = baliL (insU cmp l k) x r by
      simp [insU, hc], toList_baliL, ih h, toList]
  | case3 l x r k hc ih =>
    rw [show find? cmp (node .black l x r) k = find? cmp r k by simp [find?, hc]] at h
    rw [show insU cmp (node .black l x r) k = baliR l x (insU cmp r k) by
      simp [insU, hc], toList_baliR, ih h, toList]
  | case4 l x r k hc =>
    rw [show insU cmp (node .black l x r) k = node .black l x r by simp [insU, hc]]
  | case5 l x r k hc ih =>
    rw [show find? cmp (node .red l x r) k = find? cmp l k by simp [find?, hc]] at h
    rw [show insU cmp (node .red l x r) k = node .red (insU cmp l k) x r by
      simp [insU, hc], toList, ih h, toList]
  | case6 l x r k hc ih =>
    rw [show find? cmp (node .red l x r) k = find? cmp r k by simp [find?, hc]] at h
    rw [show insU cmp (node .red l x r) k = node .red l x (insU cmp r k) by
      simp [insU, hc], toList, ih h, toList]
  | case7 l x r k hc =>
    rw [show insU cmp (node .red l x r) k = node .red l x r by simp [insU, hc]]

theorem mem_equiv_insertUnique [Batteries.TransCmp cmp] {t : RBN α} (k x : α) :
    (∃ y ∈ toList (insertUnique cmp t k), cmp x y = .eq) ↔
      ((∃ y ∈ toList t, cmp x y = .eq) ∨ cmp x k = .eq) := by
  rw [insertUnique, toList_paint]
  cases hf : find? cmp t k with
  | some y0 =>
    rw [toList_insU_found cmp hf]
    obtain ⟨hy0, he0⟩ := find?_sound cmp hf
    constructor
    · exact Or.inl
    · rintro (h | h)
      · exact h
      · refine ⟨y0, hy0, ?_⟩
        rw [← Batteries.TransCmp.cmp_congr_right he0]
        exact h
  | none =>
    obtain ⟨l1, l2, hs, hr⟩ := toList_insU_notfound cmp hf
    rw [hr, hs]
    constructor
    · rintro ⟨y, hy, he⟩
      rcases List.mem_append.1 hy with h1 | h1
      · exact Or.inl ⟨y, List.mem_append.2 (Or.inl h1), he⟩
      · rcases List.mem_cons.1 h1 with h2 | h2
        · subst h2; exact Or.inr he
        · exact Or.inl ⟨y, List.mem_append.2 (Or.inr h2), he⟩
    · rintro (⟨y, hy, he⟩ | he)
      · rcases List.mem_append.1 hy with h1 | h1
        · exact ⟨y, List.mem_append.2 (Or.inl h1), he⟩
        · exact ⟨y, List.mem_append.2 (Or.inr (List.mem_cons_of_mem k h1)), he⟩
      · exact ⟨k, List.mem_append.2 (Or.inr (List.mem_cons_self k l2)), he⟩

end RBN

/-- Embedded from src/public/tree-set.js: a TreeSet holds an internal tree
(`this.__t`, key-only policy) and the tree's comparison function. -/
structure TreeSetM (α : Type) where
  root : RBN α
  compare : α → α → Ordering

namespace TreeSetM
variable {α : Type}

/-- Embedded from the TreeSet constructor: a freshly constructed set wraps
an empty tree with the key-only policy; the comparator is the tree's
comparison function. -/
def emptyTreeSet (cmp : α → α → Ordering) : TreeSetM α := ⟨.nil, cmp⟩

/-- Embedded from TreeSet.add: wraps the key in a node and calls the tree
engine's insertUnique. -/
def add (s : TreeSetM α) (k : α) : TreeSetM α :=
  { s with root := RBN.insertUnique s.compare s.root k }

/-- Embedded from the TreeSet size getter: delegates to the tree's size. -/
def sizeS (s : TreeSetM α) : Nat := RBN.size s.root

/-- Embedded from TreeSet.clear: delegates to the tree's clear, releasing
the whole graph. -/
def clearS (s : TreeSetM α) : TreeSetM α := { s with root := .nil }

/-- Embedded from the TreeSet compareFunc setter: `this.clear()` followed by
assigning the new comparison function to the tree. -/
def setCompareFunc (s : TreeSetM α) (f : α → α → Ordering) : TreeSetM α :=
  { clearS s with compare := f }

/-- Embedded from TreeSet.begin: the cursor at the in-order-first position,
modelled as index 0 in the traversal sequence. -/
def beginIdx (_ : TreeSetM α) : Nat := 0

/-- Embedded from TreeSet.end: the one-past-last sentinel cursor, modelled
as the traversal length. -/
def endIdx (s : TreeSetM α) : Nat := RBN.size s.root

/-- Embedded from TreeSet.delete: find the key; if the cursor differs from
the end cursor, erase the found node, otherwise do nothing. -/
def deleteS (s : TreeSetM α) (k : α) : TreeSetM α :=
  match RBN.find? s.compare s.root k with
  | none => s
  | some _ => { s with root := RBN.erase s.compare s.root k }

end TreeSetM

/-- A JavaScript constructor argument as the TreeSet constructor
distinguishes them: undefined, null, an iterable of values, or a
non-iterable object (no iterator protocol). -/
inductive JsArg (α : Type) where
  | undef
  | jsNull
  | iterable (xs : List α)
  | notIterable

/-- Embedded from the TreeSet constructor in src/public/tree-set.js:
undefined and null arguments are accepted and leave the set empty; an
iterable argument has each element added; any other argument throws
`TreeSet constructor accepts only iterable objects`. -/
def treeSetCtor (cmp : α → α → Ordering) : JsArg α → Except String (TreeSetM α)
  | .undef => .ok (TreeSetM.emptyTreeSet cmp)
  | .jsNull => .ok (TreeSetM.emptyTreeSet cmp)
  | .iterable xs =>
      .ok (xs.foldl (fun s k => TreeSetM.add s k) (TreeSetM.emptyTreeSet cmp))
  | .notIterable => .error "TreeSet constructor accepts only iterable objects"

end Jstreemap

namespace Jstreemap

theorem mem_foldl_add {α : Type} (cmp : α → α → Ordering) [Batteries.TransCmp cmp]
    (xs : List α) :
    ∀ s : TreeSetM α, s.compare = cmp →
      (xs.foldl (fun s k => TreeSetM.add s k) s).compare = cmp ∧
      ∀ x, (∃ y ∈ RBN.toList (xs.foldl (fun s k => TreeSetM.add s k) s).root,
          cmp x y = .eq) ↔
        ((∃ y ∈ RBN.toList s.root, cmp x y = .eq) ∨ ∃ y ∈ xs, cmp x y = .eq) := by
  induction xs with
  | nil =>
    intro s hs
    refine ⟨hs, fun x => ?_⟩
    simp
  | cons x0 xs ih =>
    intro s hs
    have hs2 : (TreeSetM.add s x0).compare = cmp := hs
    obtain ⟨hc, hmem⟩ := ih (TreeSetM.add s x0) hs2
    refine ⟨hc, fun x => ?_⟩
    rw [List.foldl_cons, hmem x]
    have hroot : RBN.toList (TreeSetM.add s x0).root
        = RBN.toList (RBN.insertUnique cmp s.root x0) := by
      rw [TreeSetM.add, hs]
    rw [show (∃ y ∈ RBN.toList (TreeSetM.add s x0).root, cmp x y = .eq) ↔
        ((∃ y ∈ RBN.toList s.root, cmp x y = .eq) ∨ cmp x x0 = .eq) by
      rw [hroot]; exact RBN.mem_equiv_insertUnique cmp x0 x]
    simp only [List.mem_cons]
    constructor
    · rintro ((h | h) | h)
      · exact Or.inl h
      · exact Or.inr ⟨x0, Or.inl rfl, h⟩
      · obtain ⟨y, hy, he⟩ := h
        exact Or.inr ⟨y, Or.inr hy, he⟩
    · rintro (h | ⟨y, hy | hy, he⟩)
      · exact Or.inl (Or.inl h)
      · subst hy; exact Or.inl (Or.inr he)
      · exact Or.inr ⟨y, hy, he⟩

/-- C6: replacing the comparator via the compareFunc setter clears all
existing contents — afterwards size() is 0, begin() equals end(), and the
new comparison function is installed. -/
theorem c6_compare_func_clears {α : Type} (s : TreeSetM α) (f : α → α → Ordering) :
    TreeSetM.sizeS (TreeSetM.setCompareFunc s f) = 0 ∧
    TreeSetM.beginIdx (TreeSetM.setCompareFunc s f)
      = TreeSetM.endIdx (TreeSetM.setCompareFunc s f) ∧
    (TreeSetM.setCompareFunc s f).compare = f :=
  ⟨rfl, rfl, rfl⟩

/-- C7: constructing a TreeSet from a non-iterable argument (neither
undefined nor null) throws the InvalidArgument error; constructing from an
iterable succeeds and adds each of the iterable's elements — the resulting
members are exactly the iterable's elements up to comparator equality. -/
theorem c7_ctor_iterable_or_throw {α : Type} (cmp : α → α → Ordering) :
    treeSetCtor cmp (JsArg.notIterable : JsArg α)
      = .error "TreeSet constructor accepts only iterable objects" ∧
    (Batteries.TransCmp cmp →
      ∀ xs : List α, ∃ s, treeSetCtor cmp (JsArg.iterable xs) = .ok s ∧
        ∀ x, (∃ y ∈ RBN.toList s.root, cmp x y = .eq) ↔ ∃ y ∈ xs, cmp x y = .eq) := by
  refine ⟨rfl, fun hct xs => ?_⟩
  refine ⟨xs.foldl (fun s k => TreeSetM.add s k) (TreeSetM.emptyTreeSet cmp), rfl, ?_⟩
  intro x
  obtain ⟨_, hmem⟩ := mem_foldl_add cmp xs (TreeSetM.emptyTreeSet cmp) rfl
  rw [hmem x]
  simp [TreeSetM.emptyTreeSet, RBN.toList]

/-- Closed instance of C7 at the integer comparator with the iterable
[3, 1, 3]. -/
theorem c7_ctor_iterable_or_throw_witness :
    treeSetCtor intCmp (JsArg.notIterable : JsArg Int)
      = .error "TreeSet constructor accepts only iterable objects" ∧
    (∃ s, treeSetCtor intCmp (JsArg.iterable [3, 1, 3]) = .ok s ∧
      ∀ x, (∃ y ∈ RBN.toList s.root, intCmp x y = .eq) ↔
        ∃ y ∈ ([3, 1, 3] : List Int), intCmp x y = .eq) :=
  ⟨(c7_ctor_iterable_or_throw intCmp).1,
   (c7_ctor_iterable_or_throw intCmp).2 inferInstance [3, 1, 3]⟩

/-- C8: deleting a key that is not present is a no-op that completes
without error: the set is unchanged, as are its size and its full
in-order contents — the missing-key condition is absorbed by the
end-cursor check in delete. -/
theorem c8_delete_missing {α : Type} (s : TreeSetM α) (k : α)
    (habs : ∀ y ∈ RBN.toList s.root, s.compare k y ≠ .eq) :
    TreeSetM.deleteS s k = s ∧
    TreeSetM.sizeS (TreeSetM.deleteS s k) = TreeSetM.sizeS s ∧
    RBN.toList (TreeSetM.deleteS s k).root = RBN.toList s.root := by
  have hf : RBN.find? s.compare s.root k = none := RBN.find?_eq_none s.compare habs
  have h : TreeSetM.deleteS s k = s := by
    rw [TreeSetM.deleteS, hf]
  exact ⟨h, by rw [h], by rw [h]⟩

/-- Closed instance of C8 at the integer comparator: deleting 7 from the
set holding 1 and 2. -/
theorem c8_delete_missing_witness :
    TreeSetM.deleteS ⟨Op.run intCmp [Op.insU 1, Op.insU 2], intCmp⟩ 7
      = ⟨Op.run intCmp [Op.insU 1, Op.insU 2], intCmp⟩ ∧
    TreeSetM.sizeS (TreeSetM.deleteS ⟨Op.run intCmp [Op.insU 1, Op.insU 2], intCmp⟩ 7)
      = TreeSetM.sizeS (⟨Op.run intCmp [Op.insU 1, Op.insU 2], intCmp⟩ : TreeSetM Int) ∧
    RBN.toList (TreeSetM.deleteS ⟨Op.run intCmp [Op.insU 1, Op.insU 2], intCmp⟩ 7).root
      = RBN.toList (Op.run intCmp [Op.insU 1, Op.insU 2]) :=
  c8_delete_missing ⟨Op.run intCmp [Op.insU 1, Op.insU 2], intCmp⟩ 7 (by decide)

/-- C9: constructing a TreeSet with undefined or null (or no argument,
which JavaScript passes as undefined) succeeds without throwing and yields
an empty set of size 0. -/
theorem c9_ctor_undef_null {α : Type} (cmp : α → α → Ordering) :
    treeSetCtor cmp (JsArg.undef : JsArg α) = .ok (TreeSetM.emptyTreeSet cmp) ∧
    treeSetCtor cmp (JsArg.jsNull : JsArg α) = .ok (TreeSetM.emptyTreeSet cmp) ∧
    TreeSetM.sizeS (TreeSetM.emptyTreeSet cmp : TreeSetM α) = 0 :=
  ⟨rfl, rfl, rfl⟩

end Jstreemap

namespace Jstreemap
namespace RBN
variable {α : Type} (cmp : α → α → Ordering)

/-- Modelled from the spec: `Tree.lowerBound` — comparator-guided descent to
the first element whose key is not less than the searched key, returned as
that element's in-order index (the end cursor, index `size`, if none). -/
def lowerBoundIdx : RBN α → α → Nat
  | .nil, _ => 0
  | .node _ l x r, k =>
    match cmp x k with
    | .lt => size l + 1 + lowerBoundIdx r k
    | .eq => lowerBoundIdx l k
    | .gt => lowerBoundIdx l k

/-- Modelled from the spec: `Tree.upperBound` — comparator-guided descent to
the first element whose key is strictly greater than the searched key,
returned as that element's in-order index (the end cursor if none). -/
def upperBoundIdx : RBN α → α → Nat
  | .nil, _ => 0
  | .node _ l x r, k =>
    match cmp k x with
    | .lt => upperBoundIdx l k
    | .eq => size l + 1 + upperBoundIdx r k
    | .gt => size l + 1 + upperBoundIdx r k

theorem lowerBoundIdx_correct [Batteries.TransCmp cmp] {t : RBN α} (k : α)
    (h : IsOrdW cmp t) :
    lowerBoundIdx cmp t k ≤ (toList t).length ∧
    (∀ y ∈ (toList t).take (lowerBoundIdx cmp t k), cmp y k = .lt) ∧
    (∀ y, ((toList t).drop (lowerBoundIdx cmp t k)).head? = some y →
      cmp y k ≠ .lt) := by
  induction t with
  | nil => exact ⟨by simp [toList, lowerBoundIdx], by simp [toList, lowerBoundIdx],
      by simp [toList, lowerBoundIdx]⟩
  | node c l x r ihl ihr =>
    rw [IsOrdW, toList, List.pairwise_append] at h
    obtain ⟨hL, hxR, hcross⟩ := h
    obtain ⟨hxr, hR⟩ := List.pairwise_cons.1 hxR
    cases hb : cmp x k with
    | lt =>
      obtain ⟨ih1, ih2, ih3⟩ := ihr hR
      rw [show lowerBoundIdx cmp (node c l x r) k = size l + 1 + lowerBoundIdx cmp r k by
        simp [lowerBoundIdx, hb]]
      rw [toList, ← length_toList]
      refine ⟨by simp; omega, ?_, ?_⟩
      · intro y hy
        rw [show (toList l).length + 1 + lowerBoundIdx cmp r k
            = (toList l).length + (1 + lowerBoundIdx cmp r k) by omega,
          List.take_append] at hy
        rcases List.mem_append.1 hy with h1 | h1
        · exact Batteries.TransCmp.le_lt_trans (hcross y h1 x (List.mem_cons_self x _)) hb
        · rw [show (1 + lowerBoundIdx cmp r k) = lowerBoundIdx cmp r k + 1 by omega,
            List.take_succ_cons] at h1
          rcases List.mem_cons.1 h1 with h2 | h2
          · subst h2; exact hb
          · exact ih2 y h2
      · intro y hy
        rw [show (toList l).length + 1 + lowerBoundIdx cmp r k
            = (toList l).length + (1 + lowerBoundIdx cmp r k) by omega,
          List.drop_append] at hy
        rw [show (1 + lowerBoundIdx cmp r k) = lowerBoundIdx cmp r k + 1 by omega,
          List.drop_succ_cons] at hy
        exact ih3 y hy
    | eq =>
      obtain ⟨ih1, ih2, ih3⟩ := ihl hL
      rw [show lowerBoundIdx cmp (node c l x r) k = lowerBoundIdx cmp l k by
        simp [lowerBoundIdx, hb]]
      rw [toList]
      refine ⟨by simp; omega, ?_, ?_⟩
      · intro y hy
        rw [List.take_append_of_le_length ih1] at hy
        exact ih2 y hy
      · intro y hy
        rw [List.drop_append_of_le_length ih1] at hy
        rcases Nat.lt_or_ge (lowerBoundIdx cmp l k) (toList l).length with hlt | hge
        · have hne : (toList l).drop (lowerBoundIdx cmp l k) ≠ [] := by
            intro hcon
            have := congrArg List.length hcon
            simp at this
            omega
          rw [List.head?_append_of_ne_nil _ hne] at hy
          exact ih3 y hy
        · have hnil : (toList l).drop (lowerBoundIdx cmp l k) = [] :=
            List.drop_eq_nil_of_le hge
          rw [hnil] at hy
          simp at hy
          subst hy
          simp [hb]
    | gt =>
      obtain ⟨ih1, ih2, ih3⟩ := ihl hL
      rw [show lowerBoundIdx cmp (node c l x r) k = lowerBoundIdx cmp l k by
        simp [lowerBoundIdx, hb]]
      rw [toList]
      refine ⟨by simp; omega, ?_, ?_⟩
      · intro y hy
        rw [List.take_append_of_le_length ih1] at hy
        exact ih2 y hy
      · intro y hy
        rw [List.drop_append_of_le_length ih1] at hy
        rcases Nat.lt_or_ge (lowerBoundIdx cmp l k) (toList l).length with hlt | hge
        · have hne : (toList l).drop (lowerBoundIdx cmp l k) ≠ [] := by
            intro hcon
            have := congrArg List.length hcon
            simp at this
            omega
          rw [List.head?_append_of_ne_nil _ hne] at hy
          exact ih3 y hy
        · have hnil : (toList l).drop (lowerBoundIdx cmp l k) = [] :=
            List.drop_eq_nil_of_le hge
          rw [hnil] at hy
          simp at hy
          subst hy
          simp [hb]

end RBN
end Jstreemap

namespace Jstreemap
namespace RBN
variable {α : Type} (cmp : α → α → Ordering)

theorem upperBoundIdx_correct [Batteries.TransCmp cmp] {t : RBN α} (k : α)
    (h : IsOrdW cmp t) :
    upperBoundIdx cmp t k ≤ (toList t).length ∧
    (∀ y ∈ (toList t).take (upperBoundIdx cmp t k), cmp k y ≠ .lt) ∧
    (∀ y, ((toList t).drop (upperBoundIdx cmp t k)).head? = some y →
      cmp k y = .lt) := by
  induction t with
  | nil => exact ⟨by simp [toList, upperBoundIdx], by simp [toList, upperBoundIdx],
      by simp [toList, upperBoundIdx]⟩
  | node c l x r ihl ihr =>
    rw [IsOrdW, toList, List.pairwise_append] at h
    obtain ⟨hL, hxR, hcross⟩ := h
    obtain ⟨hxr, hR⟩ := List.pairwise_cons.1 hxR
    cases hb : cmp k x with
    | lt =>
      obtain ⟨ih1, ih2, ih3⟩ := ihl hL
      rw [show upperBoundIdx cmp (node c l x r) k = upperBoundIdx cmp l k by
        simp [upperBoundIdx, hb]]
      rw [toList]
      refine ⟨by simp; omega, ?_, ?_⟩
      · intro y hy
        rw [List.take_append_of_le_length ih1] at hy
        exact ih2 y hy
      · intro y hy
        rw [List.drop_append_of_le_length ih1] at hy
        rcases Nat.lt_or_ge (upperBoundIdx cmp l k) (toList l).length with hlt | hge
        · have hne : (toList l).drop (upperBoundIdx cmp l k) ≠ [] := by
            intro hcon
            have := congrArg List.length hcon
            simp at this
            omega
          rw [List.head?_append_of_ne_nil _ hne] at hy
          exact ih3 y hy
        · have hnil : (toList l).drop (upperBoundIdx cmp l k) = [] :=
            List.drop_eq_nil_of_le hge
          rw [hnil] at hy
          simp at hy
          subst hy
          exact hb
    | eq =>
      obtain ⟨ih1, ih2, ih3⟩ := ihr hR
      rw [show upperBoundIdx cmp (node c l x r) k = size l + 1 + upperBoundIdx cmp r k by
        simp [upperBoundIdx, hb]]
      rw [toList, ← length_toList]
      refine ⟨by simp; omega, ?_, ?_⟩
      · intro y hy
        rw [show (toList l).length + 1 + upperBoundIdx cmp r k
            = (toList l).length + (1 + upperBoundIdx cmp r k) by omega,
          List.take_append] at hy
        rcases List.mem_append.1 hy with h1 | h1
        · intro hkround
          have hkx := Batteries.TransCmp.lt_le_trans hkround
            (hcross y h1 x (List.mem_cons_self x _))
          rw [hb] at hkx
          cases hkx
        · rw [show (1 + upperBoundIdx cmp r k) = upperBoundIdx cmp r k + 1 by omega,
            List.take_succ_cons] at h1
          rcases List.mem_cons.1 h1 with h2 | h2
          · subst h2; simp [hb]
          · exact ih2 y h2
      · intro y hy
        rw [show (toList l).length + 1 + upperBoundIdx cmp r k
            = (toList l).length + (1 + upperBoundIdx cmp r k) by omega,
          List.drop_append] at hy
        rw [show (1 + upperBoundIdx cmp r k) = upperBoundIdx cmp r k + 1 by omega,
          List.drop_succ_cons] at hy
        exact ih3 y hy
    | gt =>
      obtain ⟨ih1, ih2, ih3⟩ := ihr hR
      rw [show upperBoundIdx cmp (node c l x r) k = size l + 1 + upperBoundIdx cmp r k by
        simp [upperBoundIdx, hb]]
      rw [toList, ← length_toList]
      refine ⟨by simp; omega, ?_, ?_⟩
      · intro y hy
        rw [show (toList l).length + 1 + upperBoundIdx cmp r k
            = (toList l).length + (1 + upperBoundIdx cmp r k) by omega,
          List.take_append] at hy
        rcases List.mem_append.1 hy with h1 | h1
        · intro hkround
          have hkx := Batteries.TransCmp.lt_le_trans hkround
            (hcross y h1 x (List.mem_cons_self x _))
          rw [hb] at hkx
          cases hkx
        · rw [show (1 + upperBoundIdx cmp r k) = upperBoundIdx cmp r k + 1 by omega,
            List.take_succ_cons] at h1
          rcases List.mem_cons.1 h1 with h2 | h2
          · subst h2; simp [hb]
          · exact ih2 y h2
      · intro y hy
        rw [show (toList l).length + 1 + upperBoundIdx cmp r k
            = (toList l).length + (1 + upperBoundIdx cmp r k) by omega,
          List.drop_append] at hy
        rw [show (1 + upperBoundIdx cmp r k) = upperBoundIdx cmp r k + 1 by omega,
          List.drop_succ_cons] at hy
        exact ih3 y hy

end RBN
end Jstreemap

namespace Jstreemap

/-- C4: lowerBound(k) is the cursor to the first in-order element whose key
is not less than k (end cursor if none) and upperBound(k) the cursor to the
first element strictly greater than k (end cursor if none): every element
before the returned position compares on the small side and the element at
the position, when it exists, does not; for the multi-tree holding 1, 3, 3,
5, lowerBound(3) points at index 1 (the first 3) and upperBound(3) at index
3 (the 5). -/
theorem c4_lower_upper_bound :
    (∀ (α : Type) (cmp : α → α → Ordering), Batteries.TransCmp cmp →
      ∀ (t : RBN α) (k : α), RBN.IsOrdW cmp t →
        (RBN.lowerBoundIdx cmp t k ≤ (RBN.toList t).length ∧
         (∀ y ∈ (RBN.toList t).take (RBN.lowerBoundIdx cmp t k), cmp y k = .lt) ∧
         (∀ y, ((RBN.toList t).drop (RBN.lowerBoundIdx cmp t k)).head? = some y →
            cmp y k ≠ .lt)) ∧
        (RBN.upperBoundIdx cmp t k ≤ (RBN.toList t).length ∧
         (∀ y ∈ (RBN.toList t).take (RBN.upperBoundIdx cmp t k), cmp k y ≠ .lt) ∧
         (∀ y, ((RBN.toList t).drop (RBN.upperBoundIdx cmp t k)).head? = some y →
            cmp k y = .lt))) ∧
    (RBN.toList (Op.run intCmp [Op.insM 1, Op.insM 3, Op.insM 3, Op.insM 5])
        = [1, 3, 3, 5] ∧
     RBN.lowerBoundIdx intCmp
        (Op.run intCmp [Op.insM 1, Op.insM 3, Op.insM 3, Op.insM 5]) 3 = 1 ∧
     RBN.upperBoundIdx intCmp
        (Op.run intCmp [Op.insM 1, Op.insM 3, Op.insM 3, Op.insM 5]) 3 = 3) := by
  constructor
  · intro α cmp hct t k hw
    haveI := hct
    exact ⟨RBN.lowerBoundIdx_correct cmp k hw, RBN.upperBoundIdx_correct cmp k hw⟩
  · exact ⟨rfl, rfl, rfl⟩

/-- Closed instance of C4 at the integer comparator on the multi-tree
holding 1, 3, 3, 5 with the searched key 3. -/
theorem c4_lower_upper_bound_witness :
    (RBN.lowerBoundIdx intCmp
        (Op.run intCmp [Op.insM 1, Op.insM 3, Op.insM 3, Op.insM 5]) 3
      ≤ (RBN.toList (Op.run intCmp [Op.insM 1, Op.insM 3, Op.insM 3, Op.insM 5])).length ∧
     (∀ y ∈ (RBN.toList (Op.run intCmp [Op.insM 1, Op.insM 3, Op.insM 3, Op.insM 5])).take
        (RBN.lowerBoundIdx intCmp
          (Op.run intCmp [Op.insM 1, Op.insM 3, Op.insM 3, Op.insM 5]) 3),
        intCmp y 3 = .lt) ∧
     (∀ y, ((RBN.toList (Op.run intCmp [Op.insM 1, Op.insM 3, Op.insM 3, Op.insM 5])).drop
        (RBN.lowerBoundIdx intCmp
          (Op.run intCmp [Op.insM 1, Op.insM 3, Op.insM 3, Op.insM 5]) 3)).head?
          = some y → intCmp y 3 ≠ .lt)) ∧
    (RBN.upperBoundIdx intCmp
        (Op.run intCmp [Op.insM 1, Op.insM 3, Op.insM 3, Op.insM 5]) 3
      ≤ (RBN.toList (Op.run intCmp [Op.insM 1, Op.insM 3, Op.insM 3, Op.insM 5])).length ∧
     (∀ y ∈ (RBN.toList (Op.run intCmp [Op.insM 1, Op.insM 3, Op.insM 3, Op.insM 5])).take
        (RBN.upperBoundIdx intCmp
          (Op.run intCmp [Op.insM 1, Op.insM 3, Op.insM 3, Op.insM 5]) 3),
        intCmp 3 y ≠ .lt) ∧
     (∀ y, ((RBN.toList (Op.run intCmp [Op.insM 1, Op.insM 3, Op.insM 3, Op.insM 5])).drop
        (RBN.upperBoundIdx intCmp
          (Op.run intCmp [Op.insM 1, Op.insM 3, Op.insM 3, Op.insM 5]) 3)).head?
          = some y → intCmp 3 y = .lt)) :=
  c4_lower_upper_bound.1 Int intCmp inferInstance
    (Op.run intCmp [Op.insM 1, Op.insM 3, Op.insM 3, Op.insM 5]) 3
    (by rw [RBN.IsOrdW]; decide)

end Jstreemap

namespace Jstreemap

/-- Embedded from src/internal/tree-node.js: the RED color constant. -/
def RED : Nat := 1

/-- Embedded from src/internal/tree-node.js: the BLACK color constant. -/
def BLACK : Nat := 2

/-- Embedded from src/internal/tree-node.js: a node object with left, right
and parent references (object references modelled as numeric identities,
null as `none`), a key and a color. -/
structure TreeNodeO (α : Type) where
  left : Option Nat
  right : Option Nat
  parent : Option Nat
  key : Option α
  color : Nat
deriving Repr, DecidableEq

/-- Embedded from the TreeNode constructor: left, right, parent and key
start as null and the color starts as RED. -/
def TreeNodeO.mkDefault (α : Type) : TreeNodeO α := ⟨none, none, none, none, RED⟩

/-- An object heap assigning node objects to identities; dereferencing an
identity the heap does not hold models a null-dereference failure. -/
def Heap (α : Type) := Nat → Option (TreeNodeO α)

namespace TreeNodeO
variable {α : Type}

/-- Embedded from TreeNode.grandparent: `let p = this.parent; if (p ===
null) return null; return p.parent;` — the deref of `p` goes through the
heap. -/
def grandparent (h : Heap α) (n : TreeNodeO α) : Except String (Option Nat) :=
  match n.parent with
  | none => .ok none
  | some pid =>
    match h pid with
    | none => .error "null dereference"
    | some p => .ok p.parent

/-- Embedded from TreeNode.sibling: null when there is no parent, otherwise
the other child of the parent, chosen by identity comparison with
`p.left`. -/
def sibling (h : Heap α) (nid : Nat) (n : TreeNodeO α) : Except String (Option Nat) :=
  match n.parent with
  | none => .ok none
  | some pid =>
    match h pid with
    | none => .error "null dereference"
    | some p => .ok (if p.left = some nid then p.right else p.left)

/-- Embedded from TreeNode.uncle: null when there is no parent or no
grandparent, otherwise the parent's sibling. -/
def uncle (h : Heap α) (nid : Nat) (n : TreeNodeO α) : Except String (Option Nat) :=
  match n.parent with
  | none => .ok none
  | some pid =>
    match h pid with
    | none => .error "null dereference"
    | some p =>
      match p.parent with
      | none => .ok none
      | some _ => sibling h pid p

end TreeNodeO

/-- A heap is well formed when every stored parent reference leads to a
stored node. -/
def wfHeap {α : Type} (h : Heap α) : Prop :=
  ∀ i n, h i = some n → ∀ j, n.parent = some j → (h j).isSome = true

/-- C10: on a well-formed heap the navigation helpers grandparent, sibling
and uncle are total — they never fail on a missing link: with no parent
(or, for uncle, no grandparent) they return null, and otherwise they
return the parent's parent, the other child of the parent, and the
parent's sibling respectively. -/
theorem c10_navigation_total {α : Type} (h : Heap α) (hwf : wfHeap h)
    (nid : Nat) (n : TreeNodeO α) (hn : h nid = some n) :
    (∃ g, TreeNodeO.grandparent h n = .ok g) ∧
    (∃ s, TreeNodeO.sibling h nid n = .ok s) ∧
    (∃ u, TreeNodeO.uncle h nid n = .ok u) ∧
    (n.parent = none →
      TreeNodeO.grandparent h n = .ok none ∧
      TreeNodeO.sibling h nid n = .ok none ∧
      TreeNodeO.uncle h nid n = .ok none) ∧
    (∀ pid p, n.parent = some pid → h pid = some p →
      TreeNodeO.grandparent h n = .ok p.parent ∧
      TreeNodeO.sibling h nid n
        = .ok (if p.left = some nid then p.right else p.left) ∧
      (p.parent = none → TreeNodeO.uncle h nid n = .ok none) ∧
      (∀ gid g, p.parent = some gid → h gid = some g →
        TreeNodeO.uncle h nid n
          = .ok (if g.left = some pid then g.right else g.left))) := by
  have hcases : ∀ pid p, n.parent = some pid → h pid = some p →
      TreeNodeO.grandparent h n = .ok p.parent ∧
      TreeNodeO.sibling h nid n
        = .ok (if p.left = some nid then p.right else p.left) ∧
      (p.parent = none → TreeNodeO.uncle h nid n = .ok none) ∧
      (∀ gid g, p.parent = some gid → h gid = some g →
        TreeNodeO.uncle h nid n
          = .ok (if g.left = some pid then g.right else g.left)) := by
    intro pid p hp hhp
    refine ⟨?_, ?_, ?_, ?_⟩
    · simp only [TreeNodeO.grandparent, hp, hhp]
    · simp only [TreeNodeO.sibling, hp, hhp]
    · intro hg
      simp only [TreeNodeO.uncle, hp, hhp, hg]
    · intro gid g hg hhg
      simp only [TreeNodeO.uncle, hp, hhp, hg, TreeNodeO.sibling, hhg]
  have hnone : n.parent = none →
      TreeNodeO.grandparent h n = .ok none ∧
      TreeNodeO.sibling h nid n = .ok none ∧
      TreeNodeO.uncle h nid n = .ok none := by
    intro hp
    refine ⟨?_, ?_, ?_⟩ <;>
      simp only [TreeNodeO.grandparent, TreeNodeO.sibling, TreeNodeO.uncle, hp]
  have hex : (∃ g, TreeNodeO.grandparent h n = .ok g) ∧
      (∃ s, TreeNodeO.sibling h nid n = .ok s) ∧
      (∃ u, TreeNodeO.uncle h nid n = .ok u) := by
    cases hp : n.parent with
    | none =>
      obtain ⟨h1, h2, h3⟩ := hnone hp
      exact ⟨⟨none, h1⟩, ⟨none, h2⟩, ⟨none, h3⟩⟩
    | some pid =>
      have hpid := hwf nid n hn pid hp
      cases hhp : h pid with
      | none => rw [hhp] at hpid; cases hpid
      | some p =>
        obtain ⟨hg, hs, hu1, hu2⟩ := hcases pid p hp hhp
        refine ⟨⟨p.parent, hg⟩, ⟨_, hs⟩, ?_⟩
        cases hgp : p.parent with
        | none => exact ⟨none, hu1 hgp⟩
        | some gid =>
          have hgid := hwf pid p hhp gid hgp
          cases hhg : h gid with
          | none => rw [hhg] at hgid; cases hgid
          | some g => exact ⟨_, hu2 gid g hgp hhg⟩
  exact ⟨hex.1, hex.2.1, hex.2.2, hnone, hcases⟩

/-- A three-node heap: node 0 is a Black root with Red children 1 and 2. -/
def exampleHeap : Heap Int := fun i =>
  if i = 0 then some ⟨some 1, some 2, none, some 10, BLACK⟩
  else if i = 1 then some ⟨none, none, some 0, some 5, RED⟩
  else if i = 2 then some ⟨none, none, some 0, some 15, RED⟩
  else none

theorem exampleHeap_wf : wfHeap exampleHeap := by
  intro i n hi j hj
  unfold exampleHeap at hi ⊢
  split_ifs at hi
  all_goals cases hi
  all_goals cases hj
  all_goals rfl

/-- Closed instance of C10 on the three-node heap, at the left child
(identity 1), discharging the well-formedness and membership
hypotheses. -/
theorem c10_navigation_total_witness :
    (∃ g, TreeNodeO.grandparent exampleHeap ⟨none, none, some 0, some 5, RED⟩ = .ok g) ∧
    (∃ s, TreeNodeO.sibling exampleHeap 1 ⟨none, none, some 0, some 5, RED⟩ = .ok s) ∧
    (∃ u, TreeNodeO.uncle exampleHeap 1 ⟨none, none, some 0, some 5, RED⟩ = .ok u) ∧
    ((⟨none, none, some 0, some 5, RED⟩ : TreeNodeO Int).parent = none →
      TreeNodeO.grandparent exampleHeap ⟨none, none, some 0, some 5, RED⟩ = .ok none ∧
      TreeNodeO.sibling exampleHeap 1 ⟨none, none, some 0, some 5, RED⟩ = .ok none ∧
      TreeNodeO.uncle exampleHeap 1 ⟨none, none, some 0, some 5, RED⟩ = .ok none) ∧
    (∀ pid p, (⟨none, none, some 0, some 5, RED⟩ : TreeNodeO Int).parent = some pid →
      exampleHeap pid = some p →
      TreeNodeO.grandparent exampleHeap ⟨none, none, some 0, some 5, RED⟩
        = .ok p.parent ∧
      TreeNodeO.sibling exampleHeap 1 ⟨none, none, some 0, some 5, RED⟩
        = .ok (if p.left = some 1 then p.right else p.left) ∧
      (p.parent = none →
        TreeNodeO.uncle exampleHeap 1 ⟨none, none, some 0, some 5, RED⟩ = .ok none) ∧
      (∀ gid g, p.parent = some gid → exampleHeap gid = some g →
        TreeNodeO.uncle exampleHeap 1 ⟨none, none, some 0, some 5, RED⟩
          = .ok (if g.left = some pid then g.right else g.left))) :=
  c10_navigation_total exampleHeap exampleHeap_wf 1 ⟨none, none, some 0, some 5, RED⟩ rfl

end Jstreemap
